import Mathlib

/-!
Verification of the json-streaming library (a pull-based streaming JSON
reader and a scope-tracking JSON writer operating on byte streams).

The development shallowly embeds the Rust sources:
  * `src/shared/read.rs`     : `Location`, `ReaderState`, `ReaderInner` and its
    state-machine / buffer operations, `JsonParseError`;
  * `src/blocking/read.rs`   : `JsonReader::next` (the tokenizer), the literal
    consumers, string/number parsing, the `expect_*` convenience methods;
  * `src/blocking/json_writer.rs` : `JsonWriter` (`write_bytes`, `flush`,
    `write_escaped_string`, `write_bool`, the float-format decision logic);
  * `src/blocking/object.rs`, `src/blocking/array.rs` : the RAII scope objects
    (`JsonObject`, `JsonArray`) including their `Drop` behaviour;
  * `src/shared/json_formatter.rs` : `PrettyFormatter`.

Bytes are modelled as `Nat` (the Rust code only compares and copies them).
The byte source of the blocking reader is modelled as the list of bytes not
yet consumed, and the byte sink of the writer as a state threaded through a
`writeAll` function.  Rust panics (index out of bounds, integer overflow in
debug builds) are modelled by an explicit `rustPanic` error / `Option.none`.
-/

-- Decidable equality for `Except` results, so that concrete runs of the
-- embedded functions can be checked by `decide`.
deriving instance DecidableEq for Except

namespace JsonStreaming

/-- Source location, from `Location` in `src/shared/read.rs`: byte offset
(0-indexed), line and column (1-indexed). -/
structure Location where
  offset : Nat
  line : Nat
  column : Nat
deriving Repr, DecidableEq

/-- The initial location, from `Location::start()`. -/
def Location.start : Location := ⟨0, 1, 1⟩

/-- Advance the location over one consumed byte, from `Location::after_byte`:
offset always increments; a line feed starts a new line, anything else
advances the column. -/
def Location.afterByte (l : Location) (b : Nat) : Location :=
  if b = 10 then ⟨l.offset + 1, l.line + 1, 1⟩
  else ⟨l.offset + 1, l.line, l.column + 1⟩

/-- The four-state structural state machine, from `ReaderState` in
`src/shared/read.rs`. -/
inductive ReaderState where
  | initial
  | beforeEntry
  | afterKey
  | afterValue
deriving Repr, DecidableEq

/-- Error type of the reader, from `JsonParseError` as used by
`src/blocking/read.rs` (`Parse`, `UnexpectedEvent`, `BufferOverflow`, `Utf8`).
I/O errors cannot arise in this embedding (the source is a pure list);
`rustPanic` marks executions on which the Rust code would panic, and
`fuelExhausted` is an artifact of the fuel-based embedding that is proved
unreachable for adequately-fueled calls. -/
inductive RdErr where
  | parse (msg : String) (loc : Location)
  | unexpectedEvent (loc : Location)
  | bufferOverflow (loc : Location)
  | utf8
  | rustPanic
  | fuelExhausted
deriving Repr, DecidableEq

/-- Tokens produced by the reader, from `JsonReadEvent` in
`src/blocking/read.rs`.  String-like payloads are byte lists (the Rust `&str`
views into the token buffer). -/
inductive Tok where
  | startObject
  | endObject
  | startArray
  | endArray
  | key (s : List Nat)
  | stringLit (s : List Nat)
  | numberLit (s : List Nat)
  | boolLit (b : Bool)
  | nullLit
  | endOfStream
deriving Repr, DecidableEq

/-- Reader state, combining `ReaderInner` (token buffer with fixed capacity,
lenient flag, structural state, parked lookahead byte, current location) with
the remaining bytes of the underlying `BlockingRead` source.  The Rust buffer
is a fixed-size `[u8]` with a fill index `ind_end_buf`; it is modelled as the
filled prefix `buf` (length `ind_end_buf`) plus the capacity `bufCap` (bytes
past the fill index are never read by the Rust code). -/
structure RdSt where
  bufCap : Nat
  buf : List Nat
  lenient : Bool
  state : ReaderState
  parked : Option Nat
  loc : Location
  input : List Nat
deriving Repr, DecidableEq

/-- A fresh reader over `input`, from `ReaderInner::new` /
`JsonReader::new_with_provided_buffer`. -/
def RdSt.init (bufCap : Nat) (lenient : Bool) (input : List Nat) : RdSt :=
  ⟨bufCap, [], lenient, .initial, none, Location.start, input⟩

/-- The bytes the reader has not yet consumed: the parked lookahead byte (if
any) followed by the unread part of the source. -/
def RdSt.remaining (st : RdSt) : List Nat :=
  (match st.parked with | some p => [p] | none => []) ++ st.input

/-- Read one byte, from `JsonReader::read_next_byte`: the parked byte is
returned first (without advancing the location, which already counted it);
otherwise a byte is pulled from the source and the location advances. -/
def readByte (st : RdSt) : Option Nat × RdSt :=
  match st.parked with
  | some p => (some p, { st with parked := none })
  | none =>
    match st.input with
    | [] => (none, st)
    | b :: rest => (some b, { st with input := rest, loc := st.loc.afterByte b })

/-- Emit a parse error at the current location, from `ReaderInner::parse_err`. -/
def RdSt.parseErr (st : RdSt) (msg : String) : RdErr := .parse msg st.loc

/-- From `ReaderInner::ensure_accept_value`: a value may start from `Initial`,
`BeforeEntry` or `AfterKey`; from `AfterValue` this is a missing comma unless
lenient comma handling is active. -/
def ensureAcceptValue (st : RdSt) : Except RdErr RdSt :=
  match st.state with
  | .initial | .beforeEntry | .afterKey => .ok st
  | .afterValue =>
    if st.lenient then .ok st
    else .error (st.parseErr "missing comma")

/-- From `ReaderInner::ensure_accept_end_nested`: a closing bracket is valid
from `Initial` or `AfterValue`; from `BeforeEntry` it is a trailing comma and
from `AfterKey` a key without a value. -/
def ensureAcceptEndNested (st : RdSt) : Except RdErr RdSt :=
  match st.state with
  | .initial | .afterValue => .ok st
  | .beforeEntry => .error (st.parseErr "trailing comma")
  | .afterKey => .error (st.parseErr "key without a value")

/-- From `ReaderInner::state_change_for_value`: `Initial`, `BeforeEntry` and
`AfterKey` transition to `AfterValue`; from `AfterValue` the result is always
the parse error "missing comma" (note: unlike `ensure_accept_value`, this
operation does not consult the lenient flag). -/
def stateChangeForValue (st : RdSt) : Except RdErr RdSt :=
  match st.state with
  | .initial | .beforeEntry | .afterKey => .ok { st with state := .afterValue }
  | .afterValue => .error (st.parseErr "missing comma")

/-- From `ReaderInner::on_comma`: only `AfterValue` accepts a comma (moving to
`BeforeEntry`); every other state fails with "unexpected comma". -/
def onComma (st : RdSt) : Except RdErr RdSt :=
  match st.state with
  | .afterValue => .ok { st with state := .beforeEntry }
  | .initial | .beforeEntry | .afterKey => .error (st.parseErr "unexpected comma")

/-- From `ReaderInner::append_to_buf`: append one byte to the token buffer,
failing with `BufferOverflow` at the current location when the buffer is full. -/
def appendToBuf (ch : Nat) (st : RdSt) : Except RdErr RdSt :=
  if st.buf.length ≥ st.bufCap then .error (.bufferOverflow st.loc)
  else .ok { st with buf := st.buf ++ [ch] }

/-- From `ReaderInner::append_code_point`: UTF-8-encode a code point of at
most 16 bits into the token buffer (1 to 3 bytes).  The bit operations mirror
the Rust expressions, including the `as u8` truncations. -/
def appendCodePoint (cp : Nat) (st : RdSt) : Except RdErr RdSt :=
  if cp ≤ 0x7F then
    appendToBuf cp st
  else if cp ≤ 0x7FF then do
    let st ← appendToBuf (0xC0 ||| (((cp >>> 6) % 256) &&& 0x1F)) st
    appendToBuf (0x80 ||| ((cp % 256) &&& 0x3F)) st
  else do
    let st ← appendToBuf (0xE0 ||| (((cp >>> 12) % 256) &&& 0x0F)) st
    let st ← appendToBuf (0x80 ||| (((cp >>> 6) % 256) &&& 0x3F)) st
    appendToBuf (0x80 ||| ((cp % 256) &&& 0x3F)) st

/-- Continuation-range scanner for UTF-8 validity: `utf8Scan ranges l` checks
that `l` starts with continuation bytes within the given inclusive ranges and
that the remainder is a valid UTF-8 sequence.  With an empty range list it
classifies the lead byte per the UTF-8 specification (overlong encodings and
surrogates excluded). -/
def utf8Scan : List (Nat × Nat) → List Nat → Bool
  | [], [] => true
  | [], b :: rest =>
    if b ≤ 0x7F then utf8Scan [] rest
    else if 0xC2 ≤ b ∧ b ≤ 0xDF then utf8Scan [(0x80, 0xBF)] rest
    else if b = 0xE0 then utf8Scan [(0xA0, 0xBF), (0x80, 0xBF)] rest
    else if (0xE1 ≤ b ∧ b ≤ 0xEC) ∨ b = 0xEE ∨ b = 0xEF then
      utf8Scan [(0x80, 0xBF), (0x80, 0xBF)] rest
    else if b = 0xED then utf8Scan [(0x80, 0x9F), (0x80, 0xBF)] rest
    else if b = 0xF0 then utf8Scan [(0x90, 0xBF), (0x80, 0xBF), (0x80, 0xBF)] rest
    else if 0xF1 ≤ b ∧ b ≤ 0xF3 then utf8Scan [(0x80, 0xBF), (0x80, 0xBF), (0x80, 0xBF)] rest
    else if b = 0xF4 then utf8Scan [(0x80, 0x8F), (0x80, 0xBF), (0x80, 0xBF)] rest
    else false
  | _ :: _, [] => false
  | (lo, hi) :: more, c :: rest => decide (lo ≤ c ∧ c ≤ hi) && utf8Scan more rest

/-- Validity of a byte sequence as UTF-8.  Modelled from the UTF-8
specification; this embeds `core::str::from_utf8`, the standard-library
function `ReaderInner::buf_as_str` delegates to. -/
def isValidUtf8 (l : List Nat) : Bool := utf8Scan [] l

/-- From `ReaderInner::buf_as_str`: view the filled part of the token buffer
as a string, failing with a UTF-8 error when it is not valid UTF-8. -/
def bufAsStr (st : RdSt) : Except RdErr (List Nat) :=
  if isValidUtf8 st.buf then .ok st.buf else .error .utf8

/-- ASCII whitespace recognised by the tokenizer (space, tab, line feed,
carriage return), from the match in `JsonReader::consume_whitespace`. -/
def isWsByte (b : Nat) : Bool := decide (b = 32 ∨ b = 9 ∨ b = 10 ∨ b = 13)

/-- Fueled body of `JsonReader::consume_whitespace`: consume whitespace bytes,
parking the first non-whitespace byte encountered.  Each iteration consumes
one byte from `remaining`, so fuel `(remaining st).length + 1` always
suffices. -/
def consumeWsF : Nat → RdSt → RdSt
  | 0, st => st
  | fuel + 1, st =>
    match readByte st with
    | (none, st') => st'
    | (some b, st') =>
      if isWsByte b then consumeWsF fuel st'
      else { st' with parked := some b }

/-- From `JsonReader::consume_whitespace` (adequately fueled). -/
def consumeWhitespace (st : RdSt) : RdSt := consumeWsF (st.remaining.length + 1) st

/-- From `JsonReader::consume_null_literal`: greedily match the bytes `ull`
after the initial `n`, failing with "incomplete null literal" on any
mismatch. -/
def consumeNullLiteral (st : RdSt) : Except RdErr (Tok × RdSt) :=
  match readByte st with
  | (some 117, st1) =>
    match readByte st1 with
    | (some 108, st2) =>
      match readByte st2 with
      | (some 108, st3) => .ok (.nullLit, st3)
      | (_, st3) => .error (st3.parseErr "incomplete null literal")
    | (_, st2) => .error (st2.parseErr "incomplete null literal")
  | (_, st1) => .error (st1.parseErr "incomplete null literal")

/-- From `JsonReader::consume_true_literal`. -/
def consumeTrueLiteral (st : RdSt) : Except RdErr (Tok × RdSt) :=
  match readByte st with
  | (some 114, st1) =>
    match readByte st1 with
    | (some 117, st2) =>
      match readByte st2 with
      | (some 101, st3) => .ok (.boolLit true, st3)
      | (_, st3) => .error (st3.parseErr "incomplete true literal")
    | (_, st2) => .error (st2.parseErr "incomplete true literal")
  | (_, st1) => .error (st1.parseErr "incomplete true literal")

/-- From `JsonReader::consume_false_literal`. -/
def consumeFalseLiteral (st : RdSt) : Except RdErr (Tok × RdSt) :=
  match readByte st with
  | (some 97, st1) =>
    match readByte st1 with
    | (some 108, st2) =>
      match readByte st2 with
      | (some 115, st3) =>
        match readByte st3 with
        | (some 101, st4) => .ok (.boolLit false, st4)
        | (_, st4) => .error (st4.parseErr "incomplete false literal")
      | (_, st3) => .error (st3.parseErr "incomplete false literal")
    | (_, st2) => .error (st2.parseErr "incomplete false literal")
  | (_, st1) => .error (st1.parseErr "incomplete false literal")

/-- One digit step of `JsonReader::parse_unicode_codepoint`: shift the
accumulator left by four bits (with the `u16` wrap-around of `cp << 4`) and
add the digit value.  The accepted bytes mirror the Rust match arms exactly:
`0..=9`, `a..=f`, and `A..=Z` (the source's upper-case arm really spans to
`Z`). -/
def hexStep (cp : Nat) (st : RdSt) : Except RdErr (Nat × RdSt) :=
  match readByte st with
  | (some b, st') =>
    if 48 ≤ b ∧ b ≤ 57 then .ok (((cp % 4096) * 16 + (b - 48)) % 65536, st')
    else if 97 ≤ b ∧ b ≤ 102 then .ok (((cp % 4096) * 16 + (b - 97 + 10)) % 65536, st')
    else if 65 ≤ b ∧ b ≤ 90 then .ok (((cp % 4096) * 16 + (b - 65 + 10)) % 65536, st')
    else .error (st'.parseErr "not a four-digit hex number after \\u")
  | (none, st') => .error (st'.parseErr "incomplete UTF codepoint in string literal")

/-- From `JsonReader::parse_unicode_codepoint`: exactly four hex digits after
`\u`. -/
def parseUnicodeCodepoint (st : RdSt) : Except RdErr (Nat × RdSt) := do
  let (cp, st) ← hexStep 0 st
  let (cp, st) ← hexStep cp st
  let (cp, st) ← hexStep cp st
  hexStep cp st

/-- Fueled accumulation loop of `JsonReader::parse_after_quote`: gather string
content into the token buffer until the unescaped closing quote, handling the
escape sequences.  Each iteration consumes at least one byte. -/
def strLoopF : Nat → RdSt → Except RdErr RdSt
  | 0, _ => .error .fuelExhausted
  | fuel + 1, st =>
    match readByte st with
    | (none, st') => .error (st'.parseErr "unterminated string literal")
    | (some b, st') =>
      if b = 34 then .ok st'
      else if b = 92 then
        match readByte st' with
        | (some 34, st2) => appendToBuf 34 st2 >>= strLoopF fuel
        | (some 92, st2) => appendToBuf 92 st2 >>= strLoopF fuel
        | (some 47, st2) => appendToBuf 47 st2 >>= strLoopF fuel
        | (some 98, st2) => appendToBuf 0x08 st2 >>= strLoopF fuel
        | (some 102, st2) => appendToBuf 0x0c st2 >>= strLoopF fuel
        | (some 110, st2) => appendToBuf 10 st2 >>= strLoopF fuel
        | (some 114, st2) => appendToBuf 13 st2 >>= strLoopF fuel
        | (some 116, st2) => appendToBuf 9 st2 >>= strLoopF fuel
        | (some 117, st2) => do
          let (cp, st3) ← parseUnicodeCodepoint st2
          let st4 ← appendCodePoint cp st3
          strLoopF fuel st4
        | (_, st2) => .error (st2.parseErr "invalid escape in string literal")
      else appendToBuf b st' >>= strLoopF fuel

/-- From `JsonReader::parse_after_quote`: reset the token buffer, accumulate
the string content, then decide key versus string value by peeking (after
whitespace) for a colon; a non-colon byte is parked again. -/
def parseAfterQuote (st : RdSt) : Except RdErr (Tok × RdSt) := do
  let st := { st with buf := [] }
  let st ← strLoopF (st.remaining.length + 1) st
  let st := consumeWhitespace st
  match readByte st with
  | (some 58, st') =>
    match st'.state with
    | .initial | .beforeEntry => do
      let st'' := { st' with state := .afterKey }
      let s ← bufAsStr st''
      .ok (.key s, st'')
    | .afterKey => .error (st'.parseErr "two keys without value")
    | .afterValue => .error (st'.parseErr "missing comma")
  | (other, st') => do
    let st'' ← stateChangeForValue st'
    let st3 := { st'' with parked := other }
    let s ← bufAsStr st3
    .ok (.stringLit s, st3)

/-- Bytes that continue a number literal, from the match in
`JsonReader::parse_number_literal`: digits, `+`, `-`, `e`, `E`, `.`. -/
def isNumByte (b : Nat) : Bool :=
  decide ((48 ≤ b ∧ b ≤ 57) ∨ b = 43 ∨ b = 45 ∨ b = 101 ∨ b = 69 ∨ b = 46)

/-- Fueled number accumulation loop of `JsonReader::parse_number_literal`:
append number bytes greedily, parking the first non-number byte. -/
def numLoopF : Nat → RdSt → Except RdErr RdSt
  | 0, _ => .error .fuelExhausted
  | fuel + 1, st =>
    match readByte st with
    | (none, st') => .ok st'
    | (some b, st') =>
      if isNumByte b then appendToBuf b st' >>= numLoopF fuel
      else .ok { st' with parked := some b }

/-- From `JsonReader::parse_number_literal`: store the first byte at buffer
index 0 (a Rust panic when the buffer has capacity 0), accumulate the rest,
and emit the raw slice.  The Rust code unwraps `buf_as_str`, panicking on
invalid UTF-8 (impossible for number bytes, which are ASCII). -/
def parseNumberLiteral (b : Nat) (st : RdSt) : Except RdErr (Tok × RdSt) :=
  if st.bufCap = 0 then .error .rustPanic
  else do
    let st := { st with buf := [b] }
    let st ← numLoopF (st.remaining.length + 1) st
    match bufAsStr st with
    | .ok s => .ok (.numberLit s, st)
    | .error _ => .error .rustPanic

/-- The byte dispatch of `JsonReader::next`, one arm per match arm of the
Rust source.  `recurse` is the tail call `next` makes after consuming a
comma. -/
def dispatch (recurse : RdSt → Except RdErr (Tok × RdSt)) (b : Nat) (st' : RdSt) :
    Except RdErr (Tok × RdSt) :=
  if b = 44 then do
    let st'' ← onComma st'
    recurse st''
  else if b = 123 then do
    let st'' ← ensureAcceptValue st'
    .ok (.startObject, { st'' with state := .initial })
  else if b = 125 then do
    let st'' ← ensureAcceptEndNested st'
    .ok (.endObject, { st'' with state := .afterValue })
  else if b = 91 then do
    let st'' ← ensureAcceptValue st'
    .ok (.startArray, { st'' with state := .initial })
  else if b = 93 then do
    let st'' ← ensureAcceptEndNested st'
    .ok (.endArray, { st'' with state := .afterValue })
  else if b = 110 then do
    let st'' ← stateChangeForValue st'
    consumeNullLiteral st''
  else if b = 116 then do
    let st'' ← stateChangeForValue st'
    consumeTrueLiteral st''
  else if b = 102 then do
    let st'' ← stateChangeForValue st'
    consumeFalseLiteral st''
  else if b = 34 then parseAfterQuote st'
  else do
    let st'' ← stateChangeForValue st'
    if b = 45 ∨ (48 ≤ b ∧ b ≤ 57) then parseNumberLiteral b st''
    else .error (st''.parseErr "invalid JSON literal")

/-- Fueled body of `JsonReader::next`.  The fuel only feeds the tail call the
tokenizer makes after consuming a comma (a comma is never itself a token);
every recursive call has consumed at least the comma byte, so fuel
`(remaining st).length + 1` suffices. -/
def nextF : Nat → RdSt → Except RdErr (Tok × RdSt)
  | 0, _ => .error .fuelExhausted
  | fuel + 1, st =>
    let st := consumeWhitespace st
    match readByte st with
    | (none, st') => .ok (.endOfStream, st')
    | (some b, st') => dispatch (nextF fuel) b st'

/-- From `JsonReader::next` (adequately fueled). -/
def next (st : RdSt) : Except RdErr (Tok × RdSt) := nextF (st.remaining.length + 1) st

/-- Drive `next` a fixed number of times, collecting the produced tokens. -/
def readN : Nat → RdSt → Except RdErr (List Tok × RdSt)
  | 0, st => .ok ([], st)
  | n + 1, st => do
    let (t, st') ← next st
    let (ts, st'') ← readN n st'
    .ok (t :: ts, st'')

/-- Value of an all-digit byte string (none when empty or containing a
non-digit), the unsigned half of Rust's decimal `FromStr`. -/
def decDigitsVal (l : List Nat) : Option Nat :=
  if l = [] ∨ ¬ l.all (fun b => decide (48 ≤ b ∧ b ≤ 57)) then none
  else some (l.foldl (fun acc b => acc * 10 + (b - 48)) 0)

/-- Model of Rust's `FromStr` for signed decimal integers (used by
`JsonNumber::parse::<iN>` with an unbounded mathematical integer): an
optional minus sign followed by at least one decimal digit. -/
def parseIntModel (s : List Nat) : Option Int :=
  match s with
  | 45 :: rest => (decDigitsVal rest).map (fun n => -(n : Int))
  | _ => (decDigitsVal s).map (fun n => (n : Int))

/-- From `JsonReader::expect_next_bool`: capture the location before calling
`next`, then match for a boolean literal; any other token yields
`UnexpectedEvent` carrying the captured location. -/
def expectNextBool (st : RdSt) : Except RdErr (Bool × RdSt) :=
  let location := st.loc
  match next st with
  | .ok (.boolLit b, st') => .ok (b, st')
  | .ok (_, _) => .error (.unexpectedEvent location)
  | .error e => .error e

/-- From `JsonReader::expect_next_key`: a key yields `some`, the end of the
object yields `none`, anything else is `UnexpectedEvent` at the captured
location. -/
def expectNextKey (st : RdSt) : Except RdErr (Option (List Nat) × RdSt) :=
  let location := st.loc
  match next st with
  | .ok (.key k, st') => .ok (some k, st')
  | .ok (.endObject, st') => .ok (none, st')
  | .ok (_, _) => .error (.unexpectedEvent location)
  | .error e => .error e

/-- From `JsonReader::expect_next_string`. -/
def expectNextString (st : RdSt) : Except RdErr (List Nat × RdSt) :=
  let location := st.loc
  match next st with
  | .ok (.stringLit s, st') => .ok (s, st')
  | .ok (_, _) => .error (.unexpectedEvent location)
  | .error e => .error e

/-- From `JsonReader::expect_next_number::<T>` at the unbounded integer type:
a number literal is parsed with `FromStr`; parse failure is the parse error
"invalid number" at the location after the call, and a non-number token is
`UnexpectedEvent` at the location captured before the call. -/
def expectNextNumber (st : RdSt) : Except RdErr (Int × RdSt) :=
  let location := st.loc
  match next st with
  | .ok (.numberLit s, st') =>
    match parseIntModel s with
    | some n => .ok (n, st')
    | none => .error (st'.parseErr "invalid number")
  | .ok (_, _) => .error (.unexpectedEvent location)
  | .error e => .error e

/-- From `JsonReader::expect_next_start_object`. -/
def expectNextStartObject (st : RdSt) : Except RdErr RdSt :=
  let location := st.loc
  match next st with
  | .ok (.startObject, st') => .ok st'
  | .ok (_, _) => .error (.unexpectedEvent location)
  | .error e => .error e

/-- From `JsonReader::expect_next_start_array`. -/
def expectNextStartArray (st : RdSt) : Except RdErr RdSt :=
  let location := st.loc
  match next st with
  | .ok (.startArray, st') => .ok st'
  | .ok (_, _) => .error (.unexpectedEvent location)
  | .error e => .error e

/-!
### Writer model

`JsonWriter<W, F>` from `src/blocking/json_writer.rs`, with the formatter
fixed to `CompactFormatter` (whose five hooks all write nothing — this is the
formatter the claims under verification use).  The underlying `BlockingWrite`
sink is modelled by a state type `σ` together with a `writeAll` function that
either returns the updated sink state or an error `ε`.  Rust's `?` operator
propagates the error while `self` keeps its mutated state, so every writer
operation returns a `(result, state)` pair. -/

/-- State of a `JsonWriter`: the sink state plus the deferred-error slot
`unreported_error`. -/
structure WrSt (σ ε : Type) where
  inner : σ
  unreported : Option ε
deriving Repr, DecidableEq

/-- From `JsonWriter::flush`: return (and clear) any unreported error stored
by an implicit scope closure. -/
def wFlush (st : WrSt σ ε) : Except ε Unit × WrSt σ ε :=
  match st.unreported with
  | some e => (.error e, { st with unreported := none })
  | none => (.ok (), st)

/-- From `JsonWriter::set_unreported_error`. -/
def setUnreportedError (st : WrSt σ ε) (e : ε) : WrSt σ ε :=
  { st with unreported := some e }

/-- From `JsonWriter::into_inner`: flush, then hand back the sink. -/
def intoInner (st : WrSt σ ε) : Except ε σ :=
  match wFlush st with
  | (.error e, _) => .error e
  | (.ok _, st') => .ok st'.inner

/-- Sequencing for writer operations: on an error the state so far is kept
(mirroring Rust's `?` on methods of `&mut self`). -/
def wbind (x : Except ε α × WrSt σ ε) (f : α → WrSt σ ε → Except ε β × WrSt σ ε) :
    Except ε β × WrSt σ ε :=
  match x with
  | (.error e, st) => (.error e, st)
  | (.ok a, st) => f a st

/-- From `JsonWriter::write_bytes`: check the deferred-error slot first
(`flush`), then write the raw bytes through the sink. -/
def writeBytes (wa : σ → List Nat → Except ε σ) (st : WrSt σ ε) (data : List Nat) :
    Except ε Unit × WrSt σ ε :=
  wbind (wFlush st) fun _ st' =>
    match wa st'.inner data with
    | .error e => (.error e, st')
    | .ok s2 => (.ok (), { st' with inner := s2 })

/-- The lower-case hex digit table `HEX_DIGITS` from
`JsonWriter::write_escaped_string`. -/
def HEX_DIGITS : List Nat :=
  [48, 49, 50, 51, 52, 53, 54, 55, 56, 57, 97, 98, 99, 100, 101, 102]

/-- The per-byte loop of `JsonWriter::write_escaped_string`: quote and
backslash and the named control characters become two-byte escapes, other
bytes below 0x20 become a `\u00XX` escape with lower-case hex digits, and
every other byte is written unchanged. -/
def escLoop (wa : σ → List Nat → Except ε σ) : List Nat → WrSt σ ε → Except ε Unit × WrSt σ ε
  | [], st => (.ok (), st)
  | b :: rest, st =>
    let chunk : List Nat :=
      if b = 34 then [92, 34]
      else if b = 92 then [92, 92]
      else if b = 0x08 then [92, 98]
      else if b = 0x0c then [92, 102]
      else if b = 10 then [92, 110]
      else if b = 13 then [92, 114]
      else if b = 9 then [92, 116]
      else if b < 0x20 then
        [92, 117, 48, 48, HEX_DIGITS.getD (b >>> 4) 0, HEX_DIGITS.getD (b &&& 0xF) 0]
      else [b]
    wbind (writeBytes wa st chunk) fun _ st' => escLoop wa rest st'

/-- From `JsonWriter::write_escaped_string`: opening quote, escaped content,
closing quote. -/
def writeEscapedString (wa : σ → List Nat → Except ε σ) (st : WrSt σ ε) (s : List Nat) :
    Except ε Unit × WrSt σ ε :=
  wbind (writeBytes wa st [34]) fun _ st =>
    wbind (escLoop wa s st) fun _ st =>
      writeBytes wa st [34]

/-- From `JsonWriter::write_bool`. -/
def writeBool (wa : σ → List Nat → Except ε σ) (st : WrSt σ ε) (value : Bool) :
    Except ε Unit × WrSt σ ε :=
  if value then writeBytes wa st [116, 114, 117, 101]
  else writeBytes wa st [102, 97, 108, 115, 101]

/-- Decimal digits of a natural number (most significant first), as produced
by Rust's `Display` for unsigned integers.  Fueled on the number itself. -/
def natBytesF : Nat → Nat → List Nat
  | 0, _ => []
  | fuel + 1, n =>
    if n < 10 then [48 + n]
    else natBytesF fuel (n / 10) ++ [48 + n % 10]

/-- Decimal byte rendering of a natural number. -/
def natBytes (n : Nat) : List Nat := natBytesF (n + 1) n

/-- Decimal byte rendering of an integer, as produced by Rust's `Display` for
signed integers (a minus sign followed by the magnitude). -/
def intBytes (n : Int) : List Nat :=
  if n < 0 then 45 :: natBytes n.natAbs else natBytes n.natAbs

/-- From `JsonWriter::write_raw_num` at an integer type: the `Display` output
of the value, written through `write_bytes` (via the `FormatWrapper`). -/
def writeRawNum (wa : σ → List Nat → Except ε σ) (st : WrSt σ ε) (value : Int) :
    Except ε Unit × WrSt σ ε :=
  writeBytes wa st (intBytes value)

/-- The `CompactFormatter` hooks from `src/blocking/json_writer.rs` write
nothing, so each of `JsonWriter::write_format_after_key`,
`write_format_after_start_nested`, `write_format_after_element`,
`write_format_before_end_nested` and `write_format_indent` reduces to the
deferred-error check `flush`. -/
def writeFormatHookCompact (st : WrSt σ ε) : Except ε Unit × WrSt σ ε :=
  wbind (wFlush st) fun _ st' => (.ok (), st')

/-- Scope-tracking flags of a `JsonObject` / `JsonArray` builder:
`is_initial` (no child written yet) and `is_ended` (closing bracket already
written). -/
structure ScopeSt where
  isInitial : Bool
  isEnded : Bool
deriving Repr, DecidableEq

/-- From `JsonObject::new`: write `{`, notify the formatter, start with
`is_initial = true`, `is_ended = false`. -/
def objNew (wa : σ → List Nat → Except ε σ) (st : WrSt σ ε) :
    Except ε ScopeSt × WrSt σ ε :=
  wbind (writeBytes wa st [123]) fun _ st =>
    wbind (writeFormatHookCompact st) fun _ st =>
      (.ok ⟨true, false⟩, st)

/-- From `JsonObject::write_key`: separator comma for non-first entries, the
indent hook, the escaped key, the colon, and the after-key hook. -/
def objWriteKey (wa : σ → List Nat → Except ε σ) (o : ScopeSt) (key : List Nat)
    (st : WrSt σ ε) : Except ε ScopeSt × WrSt σ ε :=
  wbind
    (if o.isInitial then (.ok (), st)
     else
       wbind (writeBytes wa st [44]) fun _ st =>
         writeFormatHookCompact st)
    fun _ st =>
      let o' : ScopeSt := { o with isInitial := false }
      wbind (writeFormatHookCompact st) fun _ st =>
        wbind (writeEscapedString wa st key) fun _ st =>
          wbind (writeBytes wa st [58]) fun _ st =>
            wbind (writeFormatHookCompact st) fun _ st =>
              (.ok o', st)

/-- From `JsonObject::write_string_value`. -/
def objWriteStringValue (wa : σ → List Nat → Except ε σ) (o : ScopeSt)
    (key value : List Nat) (st : WrSt σ ε) : Except ε ScopeSt × WrSt σ ε :=
  wbind (objWriteKey wa o key st) fun o st =>
    wbind (writeEscapedString wa st value) fun _ st => (.ok o, st)

/-- From `JsonObject::write_bool_value`. -/
def objWriteBoolValue (wa : σ → List Nat → Except ε σ) (o : ScopeSt)
    (key : List Nat) (value : Bool) (st : WrSt σ ε) : Except ε ScopeSt × WrSt σ ε :=
  wbind (objWriteKey wa o key st) fun o st =>
    wbind (writeBool wa st value) fun _ st => (.ok o, st)

/-- From `JsonObject::write_null_value`. -/
def objWriteNullValue (wa : σ → List Nat → Except ε σ) (o : ScopeSt)
    (key : List Nat) (st : WrSt σ ε) : Except ε ScopeSt × WrSt σ ε :=
  wbind (objWriteKey wa o key st) fun o st =>
    wbind (writeBytes wa st [110, 117, 108, 108]) fun _ st => (.ok o, st)

/-- From the generated `JsonObject::write_*_value` integer methods. -/
def objWriteIntValue (wa : σ → List Nat → Except ε σ) (o : ScopeSt)
    (key : List Nat) (value : Int) (st : WrSt σ ε) : Except ε ScopeSt × WrSt σ ε :=
  wbind (objWriteKey wa o key st) fun o st =>
    wbind (writeRawNum wa st value) fun _ st => (.ok o, st)

/-- From `JsonObject::_end`: before-close formatter hook (passing
`is_initial` as the emptiness flag), the closing brace, and the `is_ended`
mark. -/
def objEndCore (wa : σ → List Nat → Except ε σ) (o : ScopeSt) (st : WrSt σ ε) :
    Except ε ScopeSt × WrSt σ ε :=
  wbind (writeFormatHookCompact st) fun _ st =>
    wbind (writeBytes wa st [125]) fun _ st =>
      (.ok { o with isEnded := true }, st)

/-- From `impl Drop for JsonObject`: when the scope was not explicitly ended,
run `_end`; an error from that implicit closure is stored in the writer via
`set_unreported_error` instead of being returned. -/
def objDrop (wa : σ → List Nat → Except ε σ) (o : ScopeSt) (st : WrSt σ ε) : WrSt σ ε :=
  if o.isEnded then st
  else
    match objEndCore wa o st with
    | (.error e, st') => setUnreportedError st' e
    | (.ok _, st') => st'

/-- From `JsonArray::new`. -/
def arrNew (wa : σ → List Nat → Except ε σ) (st : WrSt σ ε) :
    Except ε ScopeSt × WrSt σ ε :=
  wbind (writeBytes wa st [91]) fun _ st =>
    wbind (writeFormatHookCompact st) fun _ st =>
      (.ok ⟨true, false⟩, st)

/-- From `JsonArray::handle_initial`: separator comma for non-first elements,
then the indent hook. -/
def arrHandleInitial (wa : σ → List Nat → Except ε σ) (a : ScopeSt) (st : WrSt σ ε) :
    Except ε ScopeSt × WrSt σ ε :=
  wbind
    (if a.isInitial then (.ok (), st)
     else
       wbind (writeBytes wa st [44]) fun _ st =>
         writeFormatHookCompact st)
    fun _ st =>
      wbind (writeFormatHookCompact st) fun _ st =>
        (.ok { a with isInitial := false }, st)

/-- From `JsonArray::write_string_value`. -/
def arrWriteStringValue (wa : σ → List Nat → Except ε σ) (a : ScopeSt)
    (value : List Nat) (st : WrSt σ ε) : Except ε ScopeSt × WrSt σ ε :=
  wbind (arrHandleInitial wa a st) fun a st =>
    wbind (writeEscapedString wa st value) fun _ st => (.ok a, st)

/-- From `JsonArray::write_bool_value`. -/
def arrWriteBoolValue (wa : σ → List Nat → Except ε σ) (a : ScopeSt)
    (value : Bool) (st : WrSt σ ε) : Except ε ScopeSt × WrSt σ ε :=
  wbind (arrHandleInitial wa a st) fun a st =>
    wbind (writeBool wa st value) fun _ st => (.ok a, st)

/-- From `JsonArray::write_null_value`. -/
def arrWriteNullValue (wa : σ → List Nat → Except ε σ) (a : ScopeSt)
    (st : WrSt σ ε) : Except ε ScopeSt × WrSt σ ε :=
  wbind (arrHandleInitial wa a st) fun a st =>
    wbind (writeBytes wa st [110, 117, 108, 108]) fun _ st => (.ok a, st)

/-- From the generated `JsonArray::write_*_value` integer methods. -/
def arrWriteIntValue (wa : σ → List Nat → Except ε σ) (a : ScopeSt)
    (value : Int) (st : WrSt σ ε) : Except ε ScopeSt × WrSt σ ε :=
  wbind (arrHandleInitial wa a st) fun a st =>
    wbind (writeRawNum wa st value) fun _ st => (.ok a, st)

/-- From `JsonArray::_end`. -/
def arrEndCore (wa : σ → List Nat → Except ε σ) (a : ScopeSt) (st : WrSt σ ε) :
    Except ε ScopeSt × WrSt σ ε :=
  wbind (writeFormatHookCompact st) fun _ st =>
    wbind (writeBytes wa st [93]) fun _ st =>
      (.ok { a with isEnded := true }, st)

/-- The in-memory byte sink (`Vec<u8>` as `BlockingWrite`): appends and never
fails (polymorphic in the error type, which is never produced). -/
def listSink {ε : Type} : List Nat → List Nat → Except ε (List Nat) :=
  fun out data => .ok (out ++ data)

/-!
### Float-format model

`FormatWrapper::write_f64` / `write_f32` from `src/blocking/json_writer.rs`
(the same decision logic as `DefaultFloatFormat` in
`src/shared/float_format.rs`).  An IEEE double is modelled as NaN, a signed
infinity, or its exact (rational) finite value; the comparisons against the
literals `1e6` and `1e-3` are modelled over the rationals.  (`1e6` is exactly
1000000; the `f64` nearest `1e-3` is the least double that is ≥ 1/1000, so
over doubles the comparison against it coincides with the comparison against
1/1000.)  The digit strings produced by Rust's `Display` / `LowerExp` are
outside the embedding; the model captures which notation is selected and the
sign, which is what the claim speaks about. -/

/-- A shallow model of an `f64` value. -/
inductive FloatVal where
  | nan
  | inf (neg : Bool)
  | finite (q : ℚ)
deriving DecidableEq

/-- What the float writer emits: a decimal-notation number, an
exponential-notation number (each recording the sign written), or the `null`
literal. -/
inductive FloatOut where
  | decimalNotation (neg : Bool)
  | exponentialNotation (neg : Bool)
  | nullOut
deriving Repr, DecidableEq

/-- From `FormatWrapper::write_f64`: non-finite values are written as the
`null` literal; finite values use decimal notation when
`value.abs() < 1e6 && value.abs() >= 1e-3` and exponential notation
otherwise. -/
def writeF64Model (v : FloatVal) : FloatOut :=
  match v with
  | .finite q =>
    if |q| < 1000000 ∧ (1 : ℚ) / 1000 ≤ |q| then .decimalNotation (q < 0)
    else .exponentialNotation (q < 0)
  | _ => .nullOut

/-- From `FormatWrapper::write_f64` (and the textually identical `write_f32`),
at the byte level: a finite value is rendered through `core::fmt` — `Display`
when `value.abs() < 1e6 && value.abs() >= 1e-3`, `LowerExp` otherwise; the
digit strings are produced by the Rust standard library, outside this crate,
so they enter the model as parameters — while a non-finite value is written
as the bytes of `null`. -/
def writeF64 (display lowerExp : ℚ → List Nat) (wa : σ → List Nat → Except ε σ)
    (st : WrSt σ ε) (v : FloatVal) : Except ε Unit × WrSt σ ε :=
  match v with
  | .finite q =>
    if |q| < 1000000 ∧ (1 : ℚ) / 1000 ≤ |q| then writeBytes wa st (display q)
    else writeBytes wa st (lowerExp q)
  | _ => writeBytes wa st [110, 117, 108, 108]

/-- From `JsonArray::write_f64_value`: `handle_initial`, then the writer's
`write_f64`. -/
def arrWriteF64Value (display lowerExp : ℚ → List Nat) (wa : σ → List Nat → Except ε σ)
    (a : ScopeSt) (v : FloatVal) (st : WrSt σ ε) : Except ε ScopeSt × WrSt σ ε :=
  wbind (arrHandleInitial wa a st) fun a st =>
    wbind (writeF64 display lowerExp wa st v) fun _ st => (.ok a, st)

/-- From `JsonObject::write_f64_value`: `write_key`, then the writer's
`write_f64`. -/
def objWriteF64Value (display lowerExp : ℚ → List Nat) (wa : σ → List Nat → Except ε σ)
    (o : ScopeSt) (key : List Nat) (v : FloatVal) (st : WrSt σ ε) :
    Except ε ScopeSt × WrSt σ ε :=
  wbind (objWriteKey wa o key st) fun o st =>
    wbind (writeF64 display lowerExp wa st v) fun _ st => (.ok o, st)

/-!
### PrettyFormatter model

`PrettyFormatter` from `src/shared/json_formatter.rs` (the variant in
`src/blocking/json_writer.rs` slices the same static string).  The static
`INDENT` string is a line feed followed by 241 spaces; `indent()` slices the
first `2*indent_level + 1` bytes of it, which is a Rust panic (index out of
range) once the slice length exceeds 242.  `before_end_nested` decrements the
`usize` nesting level, which at level 0 underflows — a Rust panic in debug
builds.  Panics are modelled as `Option.none`. -/

/-- The static `INDENT` string of `PrettyFormatter::indent`: a line feed and
241 spaces. -/
def INDENT : List Nat := 10 :: List.replicate 241 32

/-- Nesting state of a `PrettyFormatter`. -/
structure PrettySt where
  indentLevel : Nat
deriving Repr, DecidableEq

/-- From `PrettyFormatter::indent`: the slice `&INDENT[..2*indent_level + 1]`,
or a panic when that range exceeds the static string. -/
def prettyIndent (f : PrettySt) : Option (List Nat) :=
  if 2 * f.indentLevel + 1 ≤ INDENT.length then some (INDENT.take (2 * f.indentLevel + 1))
  else none

/-- From `PrettyFormatter::after_start_nested`: one more nesting level, no
output. -/
def prettyAfterStartNested (f : PrettySt) : List Nat × PrettySt :=
  ([], ⟨f.indentLevel + 1⟩)

/-- From `PrettyFormatter::before_end_nested`: decrement the nesting level
(a usize underflow — panic — at level 0), then indent unless the scope was
empty. -/
def prettyBeforeEndNested (f : PrettySt) (isEmpty : Bool) : Option (List Nat × PrettySt) :=
  match f.indentLevel with
  | 0 => none
  | l + 1 =>
    if isEmpty then some ([], ⟨l⟩)
    else (prettyIndent ⟨l⟩).map (fun s => (s, ⟨l⟩))

/-!
### JSON value trees and the round-trip artefacts

A value tree as an application would build it with the writer: strings and
keys are the raw UTF-8 bytes of Rust `&str` values, numbers are (unbounded)
integers written through the generated integer methods. -/

mutual
/-- A JSON value tree. -/
inductive JsonValue where
  | str (s : List Nat)
  | num (n : Int)
  | boolV (b : Bool)
  | nullV
  | arr (elems : JsonArrVal)
  | obj (fields : JsonObjVal)

/-- The elements of a JSON array. -/
inductive JsonArrVal where
  | nil
  | cons (v : JsonValue) (rest : JsonArrVal)

/-- The key/value fields of a JSON object. -/
inductive JsonObjVal where
  | nil
  | cons (k : List Nat) (v : JsonValue) (rest : JsonObjVal)
end

mutual
/-- Serialize a complete value tree through the writer: scalars through the
writer's scalar methods, objects through `JsonObject` key/value methods,
arrays through `JsonArray` element methods, closing every scope with
`end()`. -/
def writeTopValue (wa : σ → List Nat → Except ε σ) :
    JsonValue → WrSt σ ε → Except ε Unit × WrSt σ ε
  | .str s, st => writeEscapedString wa st s
  | .num n, st => writeRawNum wa st n
  | .boolV b, st => writeBool wa st b
  | .nullV, st => writeBytes wa st [110, 117, 108, 108]
  | .arr a, st =>
    wbind (arrNew wa st) fun sc st =>
      wbind (writeArrElems wa a sc st) fun sc st =>
        wbind (arrEndCore wa sc st) fun _ st => (.ok (), st)
  | .obj o, st =>
    wbind (objNew wa st) fun sc st =>
      wbind (writeObjFields wa o sc st) fun sc st =>
        wbind (objEndCore wa sc st) fun _ st => (.ok (), st)

/-- Write the elements of an array through `JsonArray`'s element methods
(nested scopes via `start_object` / `start_array`, i.e. `handle_initial`
followed by constructing the nested scope). -/
def writeArrElems (wa : σ → List Nat → Except ε σ) :
    JsonArrVal → ScopeSt → WrSt σ ε → Except ε ScopeSt × WrSt σ ε
  | .nil, sc, st => (.ok sc, st)
  | .cons v rest, sc, st =>
    wbind
      (match v with
       | .str s => arrWriteStringValue wa sc s st
       | .num n => arrWriteIntValue wa sc n st
       | .boolV b => arrWriteBoolValue wa sc b st
       | .nullV => arrWriteNullValue wa sc st
       | .arr a =>
         wbind (arrHandleInitial wa sc st) fun sc st =>
           wbind (arrNew wa st) fun inner st =>
             wbind (writeArrElems wa a inner st) fun inner st =>
               wbind (arrEndCore wa inner st) fun _ st => (.ok sc, st)
       | .obj o =>
         wbind (arrHandleInitial wa sc st) fun sc st =>
           wbind (objNew wa st) fun inner st =>
             wbind (writeObjFields wa o inner st) fun inner st =>
               wbind (objEndCore wa inner st) fun _ st => (.ok sc, st))
      fun sc st => writeArrElems wa rest sc st

/-- Write the fields of an object through `JsonObject`'s key/value methods
(nested scopes via `start_object` / `start_array`, i.e. `write_key` followed
by constructing the nested scope). -/
def writeObjFields (wa : σ → List Nat → Except ε σ) :
    JsonObjVal → ScopeSt → WrSt σ ε → Except ε ScopeSt × WrSt σ ε
  | .nil, sc, st => (.ok sc, st)
  | .cons k v rest, sc, st =>
    wbind
      (match v with
       | .str s => objWriteStringValue wa sc k s st
       | .num n => objWriteIntValue wa sc k n st
       | .boolV b => objWriteBoolValue wa sc k b st
       | .nullV => objWriteNullValue wa sc k st
       | .arr a =>
         wbind (objWriteKey wa sc k st) fun sc st =>
           wbind (arrNew wa st) fun inner st =>
             wbind (writeArrElems wa a inner st) fun inner st =>
               wbind (arrEndCore wa inner st) fun _ st => (.ok sc, st)
       | .obj o =>
         wbind (objWriteKey wa sc k st) fun sc st =>
           wbind (objNew wa st) fun inner st =>
             wbind (writeObjFields wa o inner st) fun inner st =>
               wbind (objEndCore wa inner st) fun _ st => (.ok sc, st))
      fun sc st => writeObjFields wa rest sc st
end

/-- The bytes a value tree serializes to with the compact formatter: the
writer driven over the in-memory sink starting from an empty output. -/
def serializeCompact (v : JsonValue) : List Nat :=
  (writeTopValue listSink v (⟨[], none⟩ : WrSt (List Nat) Unit)).2.inner

/-- Per-byte escaping as §4.4 of the specification describes it:
quote, backslash, backspace, form feed, line feed, carriage return and tab
become their two-character escapes, other bytes below 0x20 become a
lower-case `\u00XX` escape, every other byte passes through unchanged. -/
def escByte (b : Nat) : List Nat :=
  if b = 34 then [92, 34]
  else if b = 92 then [92, 92]
  else if b = 0x08 then [92, 98]
  else if b = 0x0c then [92, 102]
  else if b = 10 then [92, 110]
  else if b = 13 then [92, 114]
  else if b = 9 then [92, 116]
  else if b < 0x20 then
    [92, 117, 48, 48, HEX_DIGITS.getD (b >>> 4) 0, HEX_DIGITS.getD (b &&& 0xF) 0]
  else [b]

/-- Escaped form of a whole string. -/
def escBytes (s : List Nat) : List Nat := s.flatMap escByte

mutual
/-- Closed form of the compact serialization of a value tree. -/
def jsonBytes : JsonValue → List Nat
  | .str s => [34] ++ escBytes s ++ [34]
  | .num n => intBytes n
  | .boolV b => if b then [116, 114, 117, 101] else [102, 97, 108, 115, 101]
  | .nullV => [110, 117, 108, 108]
  | .arr a => [91] ++ arrBytes a ++ [93]
  | .obj o => [123] ++ objBytes o ++ [125]

/-- Compact bytes of an array's elements. -/
def arrBytes : JsonArrVal → List Nat
  | .nil => []
  | .cons v rest => jsonBytes v ++ sepArrBytes rest

/-- Compact bytes of the non-first elements of an array, each preceded by its
separating comma. -/
def sepArrBytes : JsonArrVal → List Nat
  | .nil => []
  | .cons v rest => 44 :: (jsonBytes v ++ sepArrBytes rest)

/-- Compact bytes of an object's fields. -/
def objBytes : JsonObjVal → List Nat
  | .nil => []
  | .cons k v rest => ([34] ++ escBytes k ++ [34, 58] ++ jsonBytes v) ++ sepObjBytes rest

/-- Compact bytes of the non-first fields of an object, each preceded by its
separating comma. -/
def sepObjBytes : JsonObjVal → List Nat
  | .nil => []
  | .cons k v rest => 44 :: (([34] ++ escBytes k ++ [34, 58] ++ jsonBytes v) ++ sepObjBytes rest)
end

mutual
/-- The token sequence the reader is expected to produce for a value tree. -/
def tokensOf : JsonValue → List Tok
  | .str s => [.stringLit s]
  | .num n => [.numberLit (intBytes n)]
  | .boolV b => [.boolLit b]
  | .nullV => [.nullLit]
  | .arr a => .startArray :: (arrToks a ++ [.endArray])
  | .obj o => .startObject :: (objToks o ++ [.endObject])

/-- Expected tokens of an array's elements. -/
def arrToks : JsonArrVal → List Tok
  | .nil => []
  | .cons v rest => tokensOf v ++ arrToks rest

/-- Expected tokens of an object's fields. -/
def objToks : JsonObjVal → List Tok
  | .nil => []
  | .cons k v rest => .key k :: (tokensOf v ++ objToks rest)
end

mutual
/-- Every string and key in the tree consists of valid UTF-8 bytes (they
model Rust `&str` values, which always are). -/
def validVal : JsonValue → Bool
  | .str s => isValidUtf8 s
  | .num _ => true
  | .boolV _ => true
  | .nullV => true
  | .arr a => validArr a
  | .obj o => validObj o

/-- Validity of array elements. -/
def validArr : JsonArrVal → Bool
  | .nil => true
  | .cons v rest => validVal v && validArr rest

/-- Validity of object fields. -/
def validObj : JsonObjVal → Bool
  | .nil => true
  | .cons k v rest => isValidUtf8 k && validVal v && validObj rest
end

mutual
/-- The token-buffer capacity the reader needs for a value tree: the longest
string, key or number literal occurring in it. -/
def maxLit : JsonValue → Nat
  | .str s => s.length
  | .num n => (intBytes n).length
  | .boolV _ => 0
  | .nullV => 0
  | .arr a => maxLitArr a
  | .obj o => maxLitObj o

/-- Buffer requirement of array elements. -/
def maxLitArr : JsonArrVal → Nat
  | .nil => 0
  | .cons v rest => max (maxLit v) (maxLitArr rest)

/-- Buffer requirement of object fields. -/
def maxLitObj : JsonObjVal → Nat
  | .nil => 0
  | .cons k v rest => max k.length (max (maxLit v) (maxLitObj rest))
end

/-- Emptiness test for array element lists. -/
def JsonArrVal.isNil : JsonArrVal → Bool
  | .nil => true
  | .cons _ _ => false

/-- Emptiness test for object field lists. -/
def JsonObjVal.isNil : JsonObjVal → Bool
  | .nil => true
  | .cons _ _ _ => false

/-- Boundary condition on the bytes following a serialized value: in compact
serialized context a value is followed by nothing, a comma, or a closing
bracket.  These bytes are not whitespace, not a colon, and do not continue a
number literal, so the tokenizer's one-byte lookahead leaves them intact. -/
def boundaryOk (r : List Nat) : Prop :=
  ∀ b ∈ r.head?, b = 44 ∨ b = 93 ∨ b = 125

/-!
## Theorems

First the writer-side developments (claims about `write_escaped_string`, the
deferred-error discipline, the float formatter and the pretty formatter),
then the reader-side developments (the structural state machine, the
tokenizer) and finally the writer-to-reader round trip. -/

/-- Writing bytes through the in-memory sink with no pending error simply
appends them. -/
theorem writeBytes_listSink {ε : Type} (out d : List Nat) :
    writeBytes listSink (⟨out, none⟩ : WrSt (List Nat) ε) d = (.ok (), ⟨out ++ d, none⟩) := rfl

/-- The compact formatter hooks are no-ops on an error-free writer. -/
theorem writeFormatHookCompact_listSink {ε : Type} (out : List Nat) :
    writeFormatHookCompact (⟨out, none⟩ : WrSt (List Nat) ε) = (.ok (), ⟨out, none⟩) := rfl

/-- The escaping loop over the in-memory sink appends exactly the per-byte
escapes of the input. -/
theorem escLoop_listSink (ε : Type) :
    ∀ (s out : List Nat),
      escLoop listSink s (⟨out, none⟩ : WrSt (List Nat) ε) = (.ok (), ⟨out ++ escBytes s, none⟩)
  | [], out => by simp [escLoop, escBytes]
  | b :: rest, out => by
    have ih := escLoop_listSink ε rest
    simp only [escLoop, writeBytes_listSink, wbind]
    rw [ih]
    simp [escByte, escBytes, List.append_assoc]

/-- C6: for every input string, `write_escaped_string` outputs the string
wrapped in quotes with each byte escaped individually: quote, backslash,
backspace (0x08), form feed (0x0c), line feed, carriage return and tab become
their two-character escapes, every other byte below 0x20 becomes `\u00XX`
with lower-case hex digits, and all other bytes pass through unchanged. -/
theorem write_escaped_string_escapes_bytes {ε : Type} (st : WrSt (List Nat) ε)
    (s : List Nat) (h : st.unreported = none) :
    writeEscapedString listSink st s =
      (.ok (), ⟨st.inner ++ ([34] ++ s.flatMap escByte ++ [34]), none⟩) := by
  obtain ⟨out, u⟩ := st
  cases h
  rw [writeEscapedString, writeBytes_listSink]
  simp only [wbind]
  rw [escLoop_listSink ε s (out ++ [34])]
  simp only [wbind]
  rw [writeBytes_listSink]
  simp [escBytes, List.append_assoc]

/-- Evaluation witness for `write_escaped_string_escapes_bytes`: the string
`A \n \x01 " \` escapes to `"A\n\u0001\"\\"`. -/
theorem write_escaped_string_escapes_bytes_witness :
    ((⟨[], none⟩ : WrSt (List Nat) Unit).unreported = none) ∧
    writeEscapedString listSink (⟨[], none⟩ : WrSt (List Nat) Unit) [65, 10, 1, 34, 92] =
      (.ok (), ⟨[34, 65, 92, 110, 92, 117, 48, 48, 48, 49, 92, 34, 92, 92, 34], none⟩) :=
  ⟨rfl, by rw [write_escaped_string_escapes_bytes _ _ rfl]; rfl⟩

/-- C8: a write error raised only during a scope object's implicit closure
(`Drop` without a prior `end()`) is stored in the writer and returned by the
next explicit operation (`flush`, `into_inner`, or any write, which all check
the stored error first); after an error-free check, writes proceed normally;
and an error during explicit `end()` is returned directly, not stored. -/
theorem implicit_close_error_deferred :
    (∀ (st : WrSt (List Nat) Nat) (o : ScopeSt) (e : Nat), st.unreported = none →
        o.isEnded = false →
        objDrop (fun _ _ => .error e) o st = { st with unreported := some e })
  ∧ (∀ (st : WrSt (List Nat) Nat) (e : Nat) (d : List Nat), st.unreported = some e →
        wFlush st = (.error e, { st with unreported := none })
        ∧ writeBytes listSink st d = (.error e, { st with unreported := none })
        ∧ intoInner st = .error e)
  ∧ (∀ (out d : List Nat),
        writeBytes listSink (⟨out, none⟩ : WrSt (List Nat) Nat) d = (.ok (), ⟨out ++ d, none⟩))
  ∧ (∀ (st : WrSt (List Nat) Nat) (o : ScopeSt) (e : Nat), st.unreported = none →
        objEndCore (fun _ _ => .error e) o st = (.error e, st)) := by
  refine ⟨?_, ?_, ?_, ?_⟩
  · intro st o e h he
    obtain ⟨out, u⟩ := st
    cases h
    simp [objDrop, he, objEndCore, writeFormatHookCompact, wFlush, wbind, writeBytes,
      setUnreportedError]
  · intro st e d h
    obtain ⟨out, u⟩ := st
    cases h
    exact ⟨rfl, rfl, rfl⟩
  · intro out d
    rfl
  · intro st o e h
    obtain ⟨out, u⟩ := st
    cases h
    rfl

/-- Evaluation witness for `implicit_close_error_deferred`: dropping an
unended scope with a failing sink stores error 7; the next `write_bytes`
returns it and clears the slot; the write after that proceeds. -/
theorem implicit_close_error_deferred_witness :
    objDrop (fun _ _ => .error 7) ⟨true, false⟩ (⟨[123], none⟩ : WrSt (List Nat) Nat)
        = ⟨[123], some 7⟩
    ∧ writeBytes listSink (⟨[123], some 7⟩ : WrSt (List Nat) Nat) [97]
        = (.error 7, ⟨[123], none⟩)
    ∧ writeBytes listSink (⟨[123], none⟩ : WrSt (List Nat) Nat) [97]
        = (.ok (), ⟨[123, 97], none⟩)
    ∧ objEndCore (fun _ _ => .error 9) ⟨false, false⟩ (⟨[], none⟩ : WrSt (List Nat) Nat)
        = (.error 9, ⟨[], none⟩) :=
  ⟨implicit_close_error_deferred.1 _ _ 7 rfl rfl,
   (implicit_close_error_deferred.2.1 _ 7 [97] rfl).2.1,
   implicit_close_error_deferred.2.2.1 [123] [97],
   implicit_close_error_deferred.2.2.2 _ _ 9 rfl⟩

/-- C7: under the default float policy, non-finite values (NaN and the two
infinities) render as the `null` literal and never as a number; a finite
value renders in decimal notation exactly when `1e-3 ≤ |value| < 1e6` and in
exponential notation otherwise, the sign being preserved in both branches;
in particular 0.001 and 999999.0 are decimal while 0.0009 and 1000000.0 are
exponential. -/
theorem default_float_format_decision :
    (writeF64Model .nan = .nullOut)
  ∧ (∀ s : Bool, writeF64Model (.inf s) = .nullOut)
  ∧ (∀ q : ℚ, (1 / 1000 ≤ |q| ∧ |q| < 1000000 →
        writeF64Model (.finite q) = .decimalNotation (q < 0))
      ∧ (¬(1 / 1000 ≤ |q| ∧ |q| < 1000000) →
        writeF64Model (.finite q) = .exponentialNotation (q < 0)))
  ∧ writeF64Model (.finite (1 / 1000)) = .decimalNotation false
  ∧ writeF64Model (.finite (9 / 10000)) = .exponentialNotation false
  ∧ writeF64Model (.finite 999999) = .decimalNotation false
  ∧ writeF64Model (.finite 1000000) = .exponentialNotation false := by
  have dec : ∀ q : ℚ, 1 / 1000 ≤ |q| ∧ |q| < 1000000 →
      writeF64Model (.finite q) = .decimalNotation (q < 0) := by
    intro q h
    rw [writeF64Model, if_pos ⟨h.2, h.1⟩]
  have exp : ∀ q : ℚ, ¬(1 / 1000 ≤ |q| ∧ |q| < 1000000) →
      writeF64Model (.finite q) = .exponentialNotation (q < 0) := by
    intro q h
    rw [writeF64Model, if_neg (fun hc => h ⟨hc.2, hc.1⟩)]
  refine ⟨rfl, fun s => rfl, fun q => ⟨dec q, exp q⟩, ?_, ?_, ?_, ?_⟩
  · rw [dec (1 / 1000)
      (by rw [abs_of_nonneg (by norm_num : (0:ℚ) ≤ 1 / 1000)]; norm_num),
      decide_eq_false (by norm_num : ¬((1:ℚ) / 1000 < 0))]
  · rw [exp (9 / 10000) ?_, decide_eq_false (by norm_num : ¬((9:ℚ) / 10000 < 0))]
    intro hc
    have h1 := hc.1
    rw [abs_of_nonneg (by norm_num : (0:ℚ) ≤ 9 / 10000)] at h1
    norm_num at h1
  · rw [dec 999999
      (by rw [abs_of_nonneg (by norm_num : (0:ℚ) ≤ 999999)]; norm_num),
      decide_eq_false (by norm_num : ¬((999999:ℚ) < 0))]
  · rw [exp 1000000 ?_, decide_eq_false (by norm_num : ¬((1000000:ℚ) < 0))]
    intro hc
    have h2 := hc.2
    rw [abs_of_nonneg (by norm_num : (0:ℚ) ≤ 1000000)] at h2
    norm_num at h2

/-- Evaluation witness for `default_float_format_decision`: 2.5 is rendered
in decimal notation with a positive sign. -/
theorem default_float_format_decision_witness :
    (1 / 1000 ≤ |(5 / 2 : ℚ)| ∧ |(5 / 2 : ℚ)| < 1000000)
    ∧ writeF64Model (.finite (5 / 2)) = .decimalNotation false :=
  have hc : 1 / 1000 ≤ |(5 / 2 : ℚ)| ∧ |(5 / 2 : ℚ)| < 1000000 := by
    rw [abs_of_nonneg (by norm_num : (0:ℚ) ≤ 5 / 2)]
    norm_num
  ⟨hc,
   by
    rw [(default_float_format_decision.2.2.1 (5 / 2)).1 hc,
      decide_eq_false (by norm_num : ¬((5:ℚ) / 2 < 0))]⟩

/-- C10 (implicit): the pretty formatter has a hard nesting-depth limit.
Opening `n` scopes raises the indentation level to `n`; `indent()` slices the
static 242-byte indent string and succeeds exactly up to level 120, and
panics (instead of returning an error) beyond that; `before_end_nested` at
level 0 underflows the `usize` decrement, a panic as well. -/
theorem pretty_formatter_depth_limit :
    (∀ n : Nat, (fun f => (prettyAfterStartNested f).2)^[n] ⟨0⟩ = (⟨n⟩ : PrettySt))
  ∧ (∀ L : Nat, L ≤ 120 →
      prettyIndent ⟨L⟩ = some (10 :: List.replicate (2 * L) 32))
  ∧ (∀ L : Nat, 120 < L → prettyIndent ⟨L⟩ = none)
  ∧ (∀ b : Bool, prettyBeforeEndNested ⟨0⟩ b = none) := by
  refine ⟨?_, ?_, ?_, fun b => rfl⟩
  · intro n
    induction n with
    | zero => rfl
    | succ k ih => rw [Function.iterate_succ_apply', ih]; rfl
  · intro L hL
    rw [prettyIndent, if_pos]
    · congr 1
      simp only [INDENT, List.take_succ_cons, List.take_replicate]
      rw [Nat.min_eq_left (by omega)]
    · simp only [INDENT, List.length_cons, List.length_replicate]
      omega
  · intro L hL
    rw [prettyIndent, if_neg]
    simp only [INDENT, List.length_cons, List.length_replicate]
    omega

/-- Evaluation witness for `pretty_formatter_depth_limit`: level 120 still
indents (241 bytes), level 121 panics, and closing at level 0 panics. -/
theorem pretty_formatter_depth_limit_witness :
    prettyIndent ⟨120⟩ = some (10 :: List.replicate 240 32)
    ∧ prettyIndent ⟨121⟩ = none
    ∧ prettyBeforeEndNested ⟨0⟩ false = none :=
  ⟨pretty_formatter_depth_limit.2.1 120 (by norm_num),
   pretty_formatter_depth_limit.2.2.1 121 (by norm_num),
   pretty_formatter_depth_limit.2.2.2 false⟩

/-- The whitespace scan stops immediately on a non-whitespace byte, leaving
it parked. -/
theorem consumeWsF_not_ws (fuel : Nat) (st : RdSt) (b : Nat) (r : List Nat)
    (h : st.remaining = b :: r) (hw : isWsByte b = false) :
    ∃ l, consumeWsF (fuel + 1) st =
      ⟨st.bufCap, st.buf, st.lenient, st.state, some b, l, r⟩ := by
  obtain ⟨cap, buf, len, s, parked, loc, input⟩ := st
  cases parked with
  | some p =>
    simp only [RdSt.remaining, List.cons_append, List.nil_append, List.cons.injEq] at h
    obtain ⟨rfl, rfl⟩ := h
    exact ⟨loc, by simp [consumeWsF, readByte, hw]⟩
  | none =>
    simp only [RdSt.remaining, List.nil_append] at h
    subst h
    exact ⟨loc.afterByte b, by simp [consumeWsF, readByte, hw]⟩

/-- Entering `next` on pending input headed by a non-whitespace byte reaches
the dispatch on that byte, with the byte consumed and nothing parked. -/
theorem next_entry (st : RdSt) (b : Nat) (r : List Nat)
    (h : st.remaining = b :: r) (hw : isWsByte b = false) :
    ∃ l, next st = dispatch (nextF (r.length + 1)) b
      ⟨st.bufCap, st.buf, st.lenient, st.state, none, l, r⟩ := by
  obtain ⟨l, hcw⟩ := consumeWsF_not_ws (r.length + 1) st b r h hw
  refine ⟨l, ?_⟩
  rw [next, h]
  simp only [List.length_cons, nextF]
  rw [consumeWhitespace, h]
  simp only [List.length_cons]
  rw [hcw]
  simp [readByte]

/-- With no pending input, `next` returns `EndOfStream` and leaves the state
untouched (so end-of-stream is idempotent). -/
theorem next_eos (st : RdSt) (h : st.remaining = []) : next st = .ok (.endOfStream, st) := by
  obtain ⟨cap, buf, len, s, parked, loc, input⟩ := st
  cases parked with
  | some p => simp [RdSt.remaining] at h
  | none =>
    simp only [RdSt.remaining, List.nil_append] at h
    subst h
    rfl

/-- Appending to a buffer that still has room succeeds. -/
theorem appendToBuf_lt (ch : Nat) (st : RdSt) (h : st.buf.length < st.bufCap) :
    appendToBuf ch st = .ok { st with buf := st.buf ++ [ch] } := by
  rw [appendToBuf, if_neg (by omega)]

/-- A comma in `AfterValue` state is consumed silently: `next` proceeds as if
called in `BeforeEntry` state on the rest of the input. -/
theorem next_comma (st : RdSt) (r : List Nat)
    (h : st.remaining = 44 :: r) (hs : st.state = .afterValue) :
    ∃ l, next st = next ⟨st.bufCap, st.buf, st.lenient, .beforeEntry, none, l, r⟩ := by
  obtain ⟨l, he⟩ := next_entry st 44 r h (by decide)
  refine ⟨l, ?_⟩
  rw [he]
  simp only [dispatch, if_pos rfl, onComma, hs]
  simp only [bind, Except.bind]
  rw [next]
  simp [RdSt.remaining]

/-- `readN` splits over a sum of counts. -/
theorem readN_add (m n : Nat) (st : RdSt) :
    readN (m + n) st =
      (readN m st).bind fun p =>
        (readN n p.2).map fun q => (p.1 ++ q.1, q.2) := by
  induction m generalizing st with
  | zero =>
    simp only [Nat.zero_add, readN, Except.bind]
    cases readN n st with
    | error e => rfl
    | ok p => rfl
  | succ k ih =>
    have : k + 1 + n = (k + n) + 1 := by omega
    rw [this]
    simp only [readN]
    cases next st with
    | error e => rfl
    | ok p =>
      simp only [Except.bind, bind, Except.map]
      rw [ih p.2]
      cases readN k p.2 with
      | error e => rfl
      | ok q =>
        simp only [Except.bind, Except.map]
        cases readN n q.2 with
        | error e => rfl
        | ok w => simp [Except.map, Except.bind]

/-- `readN` only looks at states through `next`, so states with equal `next`
behaviour read equally. -/
theorem readN_congr (m : Nat) (st st₁ : RdSt) (h : next st = next st₁) :
    readN (m + 1) st = readN (m + 1) st₁ := by
  simp only [readN, h]

/-- A list of ASCII bytes is valid UTF-8. -/
theorem isValidUtf8_ascii : ∀ (l : List Nat), (∀ b ∈ l, b ≤ 127) → isValidUtf8 l = true
  | [], _ => rfl
  | b :: rest, h => by
    have hb : b ≤ 127 := h b (List.mem_cons_self b rest)
    have hrec := isValidUtf8_ascii rest (fun x hx => h x (List.mem_cons_of_mem b hx))
    show isValidUtf8 (b :: rest) = true
    rw [isValidUtf8, utf8Scan]
    rw [if_pos (show b ≤ 0x7F by omega)]
    exact hrec

/-- `natBytesF` is fuel-insensitive once the fuel exceeds the number. -/
theorem natBytesF_adequate : ∀ (f1 f2 n : Nat), n < f1 → n < f2 →
    natBytesF f1 n = natBytesF f2 n := by
  intro f1
  induction f1 with
  | zero => intro f2 n h; omega
  | succ k ih =>
    intro f2 n h1 h2
    cases f2 with
    | zero => omega
    | succ k2 =>
      simp only [natBytesF]
      by_cases hn : n < 10
      · simp [hn]
      · rw [if_neg hn, if_neg hn, ih k2 (n / 10) (by omega) (by omega)]

/-- Recursion equation for `natBytes` on large numbers. -/
theorem natBytes_step (n : Nat) (h : ¬ n < 10) :
    natBytes n = natBytes (n / 10) ++ [48 + n % 10] := by
  rw [natBytes, natBytes, natBytesF, if_neg h,
    natBytesF_adequate n (n / 10 + 1) (n / 10) (by omega) (by omega)]

/-- `natBytes` of a small number is the single digit. -/
theorem natBytes_small (n : Nat) (h : n < 10) : natBytes n = [48 + n] := by
  rw [natBytes, natBytesF, if_pos h]

/-- Decimal renderings are never empty. -/
theorem natBytes_ne_nil (n : Nat) : natBytes n ≠ [] := by
  by_cases h : n < 10
  · rw [natBytes_small n h]; simp
  · rw [natBytes_step n h]; simp

/-- Every byte of a decimal rendering is an ASCII digit. -/
theorem natBytes_digits (n : Nat) : ∀ b ∈ natBytes n, 48 ≤ b ∧ b ≤ 57 := by
  induction n using Nat.strong_induction_on with
  | _ n ih =>
    by_cases h : n < 10
    · rw [natBytes_small n h]
      intro b hb
      simp only [List.mem_singleton] at hb
      omega
    · rw [natBytes_step n h]
      intro b hb
      rcases List.mem_append.mp hb with hb' | hb'
      · exact ih (n / 10) (by omega) b hb'
      · simp only [List.mem_singleton] at hb'
        have := Nat.mod_lt n (show 0 < 10 by omega)
        omega

/-- Folding the digit bytes of `natBytes n` back into a number recovers `n`
(with an arbitrary accumulator riding along). -/
theorem natBytes_foldl (n : Nat) : ∀ (a : Nat),
    (natBytes n).foldl (fun acc b => acc * 10 + (b - 48)) a =
      a * 10 ^ (natBytes n).length + n := by
  induction n using Nat.strong_induction_on with
  | _ n ih =>
    intro a
    by_cases h : n < 10
    · rw [natBytes_small n h]
      simp
    · rw [natBytes_step n h]
      rw [List.foldl_append, ih (n / 10) (by omega) a]
      simp only [List.foldl_cons, List.foldl_nil, List.length_append,
        List.length_singleton]
      have h10 : 48 + n % 10 - 48 = n % 10 := by omega
      rw [h10, pow_succ]
      have hdm : n / 10 * 10 + n % 10 = n := by omega
      calc (a * 10 ^ (natBytes (n / 10)).length + n / 10) * 10 + n % 10
          = a * (10 ^ (natBytes (n / 10)).length * 10) + (n / 10 * 10 + n % 10) := by ring
        _ = a * (10 ^ (natBytes (n / 10)).length * 10) + n := by rw [hdm]

/-- Parsing the digit bytes of a natural number recovers it. -/
theorem natBytes_fold_zero (n : Nat) :
    (natBytes n).foldl (fun acc b => acc * 10 + (b - 48)) 0 = n := by
  rw [natBytes_foldl n 0]
  simp

/-- `parseIntModel` is a left inverse of the integer `Display` rendering:
Rust's `FromStr` parses back exactly the integer that was written. -/
theorem parseIntModel_intBytes (n : Int) : parseIntModel (intBytes n) = some n := by
  have hdig : ∀ m : Nat, decDigitsVal (natBytes m) = some m := by
    intro m
    rw [decDigitsVal, if_neg, natBytes_fold_zero]
    push_neg
    refine ⟨natBytes_ne_nil m, ?_⟩
    rw [List.all_eq_true]
    intro b hb
    have := natBytes_digits m b hb
    simp only [decide_eq_true_eq]
    omega
  by_cases hn : n < 0
  · rw [intBytes, if_pos hn]
    rw [parseIntModel.eq_def]
    split
    · rename_i rest heq
      rw [← (List.cons.inj heq).2, hdig n.natAbs]
      simp
      rw [abs_of_neg hn, neg_neg]
    · rename_i hno
      exact absurd rfl (hno (natBytes n.natAbs))
  · rw [intBytes, if_neg hn]
    cases hh : natBytes n.natAbs with
    | nil => exact absurd hh (natBytes_ne_nil n.natAbs)
    | cons x xs =>
      have hx : x ≠ 45 := by
        have := natBytes_digits n.natAbs x (by rw [hh]; exact List.mem_cons_self x xs)
        omega
      rw [parseIntModel.eq_def]
      split
      · rename_i rest heq
        have := (List.cons.inj heq).1
        omega
      · rw [← hh, hdig n.natAbs]
        simp
        omega

/-- C1: in strict (non-lenient) mode the reader's structural state machine
behaves exactly as the four-operation transition table: `ensure_accept_value`
succeeds from Initial, BeforeEntry and AfterKey and fails "missing comma"
from AfterValue; `ensure_accept_end_nested` succeeds from Initial and
AfterValue, fails "trailing comma" from BeforeEntry and "key without a value"
from AfterKey; `state_change_for_value` moves Initial, BeforeEntry and
AfterKey to AfterValue and fails "missing comma" from AfterValue; `on_comma`
moves AfterValue to BeforeEntry and fails "unexpected comma" otherwise — and
`next()` exercises exactly these transitions for each input class (a value
byte, a comma, a closing bracket). -/
theorem state_machine_table (st : RdSt) (hlen : st.lenient = false)
    (hpark : st.parked = none) :
    ((st.state ≠ .afterValue →
        ensureAcceptValue st = .ok st
        ∧ stateChangeForValue st = .ok { st with state := .afterValue })
      ∧ (st.state = .afterValue →
        ensureAcceptValue st = .error (.parse "missing comma" st.loc)
        ∧ stateChangeForValue st = .error (.parse "missing comma" st.loc))
      ∧ ((st.state = .initial ∨ st.state = .afterValue) →
        ensureAcceptEndNested st = .ok st)
      ∧ (st.state = .beforeEntry →
        ensureAcceptEndNested st = .error (.parse "trailing comma" st.loc))
      ∧ (st.state = .afterKey →
        ensureAcceptEndNested st = .error (.parse "key without a value" st.loc))
      ∧ (st.state = .afterValue → onComma st = .ok { st with state := .beforeEntry })
      ∧ (st.state ≠ .afterValue → onComma st = .error (.parse "unexpected comma" st.loc)))
    ∧ ((st.state ≠ .afterValue →
        next { st with input := [110, 117, 108, 108] } =
          .ok (.nullLit,
            { st with
                state := .afterValue
                input := []
                loc := (((st.loc.afterByte 110).afterByte 117).afterByte 108).afterByte 108 }))
      ∧ (st.state = .afterValue →
        next { st with input := [110, 117, 108, 108] } =
          .error (.parse "missing comma" (st.loc.afterByte 110))))
    ∧ ((st.state = .afterValue →
        next { st with input := [44, 110, 117, 108, 108] } =
          .ok (.nullLit,
            { st with
                state := .afterValue
                input := []
                loc := ((((st.loc.afterByte 44).afterByte 110).afterByte
                  117).afterByte 108).afterByte 108 }))
      ∧ (st.state ≠ .afterValue →
        next { st with input := [44, 110, 117, 108, 108] } =
          .error (.parse "unexpected comma" (st.loc.afterByte 44))))
    ∧ (((st.state = .initial ∨ st.state = .afterValue) →
        next { st with input := [93] } =
          .ok (.endArray,
            { st with
                state := .afterValue
                input := []
                loc := st.loc.afterByte 93 }))
      ∧ (st.state = .beforeEntry →
        next { st with input := [93] } =
          .error (.parse "trailing comma" (st.loc.afterByte 93)))
      ∧ (st.state = .afterKey →
        next { st with input := [93] } =
          .error (.parse "key without a value" (st.loc.afterByte 93)))) := by
  obtain ⟨cap, buf, len, s, parked, loc, input⟩ := st
  simp only at hlen hpark
  subst hlen
  subst hpark
  cases s <;>
    simp [ensureAcceptValue, ensureAcceptEndNested, stateChangeForValue, onComma,
      next, RdSt.remaining, nextF, consumeWhitespace, consumeWsF, readByte, dispatch,
      consumeNullLiteral, isWsByte, RdSt.parseErr, ensureAcceptEndNested,
      bind, Except.bind]

/-- Evaluation witness for `state_machine_table`: a fresh strict reader (state
Initial) accepts a value and rejects a leading comma. -/
theorem state_machine_table_witness :
    ((RdSt.init 8 false [])).lenient = false
    ∧ ((RdSt.init 8 false [])).parked = none
    ∧ ((RdSt.init 8 false [])).state ≠ .afterValue
    ∧ ensureAcceptValue (RdSt.init 8 false []) = .ok (RdSt.init 8 false [])
    ∧ next { (RdSt.init 8 false []) with input := [44, 110, 117, 108, 108] } =
        .error (.parse "unexpected comma" ((RdSt.init 8 false []).loc.afterByte 44)) :=
  ⟨rfl, rfl, by decide,
   ((state_machine_table (RdSt.init 8 false []) rfl rfl).1.1 (by decide)).1,
   (state_machine_table (RdSt.init 8 false []) rfl rfl).2.2.1.2 (by decide)⟩

/-- Counterexample to C3 as stated: with the lenient flag set,
`state_change_for_value` in state `AfterValue` still fails "missing comma"
(the flag is only consulted by `ensure_accept_value`), and the tokenizer
rejects the scalar sequence `1 2` even in lenient mode. -/
theorem lenient_scalar_counterexample :
    stateChangeForValue ⟨64, [], true, .afterValue, none, Location.start, []⟩ =
      .error (.parse "missing comma" Location.start)
    ∧ readN 2 (RdSt.init 64 true [49, 32, 50]) =
      .error (.parse "missing comma" ⟨3, 1, 4⟩) := by
  exact ⟨rfl, by decide⟩

/-- C3 (amended): the lenient-comma flag affects only `ensure_accept_value`,
so in lenient mode a start-object or start-array token may follow a previous
value with no separating comma (e.g. `{}{}` tokenizes), but
`state_change_for_value` fails "missing comma" from `AfterValue` even with
the flag set, so scalar values still require a separating comma. -/
theorem lenient_comma_scope (st : RdSt) :
    (st.lenient = true → ensureAcceptValue st = .ok st)
    ∧ (st.state = .afterValue →
        stateChangeForValue st = .error (.parse "missing comma" st.loc))
    ∧ readN 4 (RdSt.init 64 true [123, 125, 123, 125]) =
        .ok ([.startObject, .endObject, .startObject, .endObject],
          ⟨64, [], true, .afterValue, none, ⟨4, 1, 5⟩, []⟩)
    ∧ readN 4 (RdSt.init 64 false [123, 125, 123, 125]) =
        .error (.parse "missing comma" ⟨3, 1, 4⟩) := by
  refine ⟨?_, ?_, by decide, by decide⟩
  · intro hl
    cases hs : st.state <;> simp [ensureAcceptValue, hs, hl]
  · intro hs
    simp [stateChangeForValue, hs, RdSt.parseErr]

/-- Evaluation witness for `lenient_comma_scope` at a concrete lenient
reader in state `AfterValue`. -/
theorem lenient_comma_scope_witness :
    ((⟨8, [], true, .afterValue, none, Location.start, []⟩ : RdSt).lenient = true)
    ∧ ensureAcceptValue ⟨8, [], true, .afterValue, none, Location.start, []⟩ =
        .ok ⟨8, [], true, .afterValue, none, Location.start, []⟩
    ∧ stateChangeForValue ⟨8, [], true, .afterValue, none, Location.start, []⟩ =
        .error (.parse "missing comma" Location.start) :=
  ⟨rfl,
   (lenient_comma_scope ⟨8, [], true, .afterValue, none, Location.start, []⟩).1 rfl,
   (lenient_comma_scope ⟨8, [], true, .afterValue, none, Location.start, []⟩).2.1 rfl⟩

/-- C4 (code bug): the upper-case arm of `parse_unicode_codepoint` spans
`b'A'..=b'Z'` instead of `b'A'..=b'F'`, so `"\u00G0"` — whose `G` is outside
0-9, a-f, A-F — is accepted with digit value 16, producing the string U+0100
(`[196, 128]` in UTF-8) instead of failing "not a four-digit hex number
after \u" as the specification (and the function's own comment) require. -/
theorem unicode_escape_accepts_beyond_F :
    readN 1 (RdSt.init 64 false [34, 92, 117, 48, 48, 71, 48, 34]) =
      .ok ([.stringLit [196, 128]],
        ⟨64, [196, 128], false, .afterValue, none, ⟨8, 1, 9⟩, []⟩)
    ∧ hexStep 0 ⟨64, [], false, .initial, none, Location.start, [71]⟩ =
      .ok (16, ⟨64, [], false, .initial, none, ⟨1, 1, 2⟩, []⟩) := by decide

/-- Counterexample to C9 as stated: on the input `" null"` (one whitespace
byte, then a null literal starting at byte offset 1), `expect_next_bool`
fails with `UnexpectedEvent` carrying offset 0 — the reader's position
before the call, not the start of the unexpected token. -/
theorem expect_location_counterexample :
    expectNextBool (RdSt.init 64 false [32, 110, 117, 108, 108]) =
      .error (.unexpectedEvent ⟨0, 1, 1⟩)
    ∧ (List.takeWhile isWsByte [32, 110, 117, 108, 108]).length = 1
    ∧ (⟨0, 1, 1⟩ : Location).offset ≠ 1 := by decide

/-- C9 (amended): whenever an `expect_*` convenience method receives a token
of the wrong kind from `next()`, it fails with `UnexpectedEvent` carrying the
location captured before the `next()` call — the reader's position before any
whitespace preceding the token is skipped — which coincides with the start of
the unexpected token only when nothing precedes it. -/
theorem expect_unexpected_event_location (st : RdSt) :
    (∀ t st', next st = .ok (t, st') → (∀ b, t ≠ .boolLit b) →
        expectNextBool st = .error (.unexpectedEvent st.loc))
    ∧ (∀ t st', next st = .ok (t, st') → (∀ s, t ≠ .stringLit s) →
        expectNextString st = .error (.unexpectedEvent st.loc))
    ∧ (∀ t st', next st = .ok (t, st') → (∀ k, t ≠ .key k) → t ≠ .endObject →
        expectNextKey st = .error (.unexpectedEvent st.loc))
    ∧ (∀ t st', next st = .ok (t, st') → (∀ s, t ≠ .numberLit s) →
        expectNextNumber st = .error (.unexpectedEvent st.loc))
    ∧ (∀ t st', next st = .ok (t, st') → t ≠ .startObject →
        expectNextStartObject st = .error (.unexpectedEvent st.loc))
    ∧ (∀ t st', next st = .ok (t, st') → t ≠ .startArray →
        expectNextStartArray st = .error (.unexpectedEvent st.loc)) := by
  constructor
  · intro t st' h hne
    rw [expectNextBool, h]
    cases t <;> simp_all
  constructor
  · intro t st' h hne
    rw [expectNextString, h]
    cases t <;> simp_all
  constructor
  · intro t st' h hne hne2
    rw [expectNextKey, h]
    cases t <;> simp_all
  constructor
  · intro t st' h hne
    rw [expectNextNumber, h]
    cases t <;> simp_all
  constructor
  · intro t st' h hne
    rw [expectNextStartObject, h]
    cases t <;> simp_all
  · intro t st' h hne
    rw [expectNextStartArray, h]
    cases t <;> simp_all

/-- Evaluation witness for `expect_unexpected_event_location`: the `" null"`
input yields a null literal token, so `expect_next_bool` reports the
pre-call location (offset 0). -/
theorem expect_unexpected_event_location_witness :
    next (RdSt.init 64 false [32, 110, 117, 108, 108]) =
      .ok (.nullLit, ⟨64, [], false, .afterValue, none, ⟨5, 1, 6⟩, []⟩)
    ∧ expectNextBool (RdSt.init 64 false [32, 110, 117, 108, 108]) =
      .error (.unexpectedEvent (RdSt.init 64 false [32, 110, 117, 108, 108]).loc) :=
  ⟨by decide,
   (expect_unexpected_event_location (RdSt.init 64 false [32, 110, 117, 108, 108])).1
     .nullLit ⟨64, [], false, .afterValue, none, ⟨5, 1, 6⟩, []⟩ (by decide)
     (fun b h => Tok.noConfusion h)⟩

/-- Counterexample to C5 as stated: with capacity 2 and input `"aaa` the
overflowing third `a` sits at byte offset 3, but the `BufferOverflow` error
carries the reader's location after consuming it — offset 4. -/
theorem buffer_overflow_location_counterexample :
    next (RdSt.init 2 false [34, 97, 97, 97, 34]) = .error (.bufferOverflow ⟨4, 1, 5⟩)
    ∧ (⟨4, 1, 5⟩ : Location).offset ≠ 3 := by decide

set_option maxHeartbeats 1600000 in
/-- One string-loop step over the six-byte lower-case hex escape of an
unnamed control byte (written as `\u00XX` by the writer): the byte is
decoded and appended to the buffer, and the location advances by six. -/
theorem strLoopF_u_step (c d1 d2 : Nat) (h32 : c < 32) (h8 : c ≠ 8) (h9 : c ≠ 9)
    (h10 : c ≠ 10) (h12 : c ≠ 12) (h13 : c ≠ 13)
    (hd1 : d1 = HEX_DIGITS.getD (c / 16) 0) (hd2 : d2 = HEX_DIGITS.getD (c % 16) 0)
    (f cap : Nat) (buf : List Nat)
    (len : Bool) (sst : ReaderState) (loc : Location) (tl : List Nat)
    (hge : ¬ buf.length ≥ cap) :
    strLoopF (f + 1) ⟨cap, buf, len, sst, none, loc, 92 :: 117 :: 48 :: 48 :: d1 :: d2 :: tl⟩ =
      strLoopF f ⟨cap, buf ++ [c], len, sst, none,
        ⟨loc.offset + 6, loc.line, loc.column + 6⟩, tl⟩ := by
  interval_cases c <;>
    first
      | omega
      | (subst hd1
         subst hd2
         simp only [HEX_DIGITS]
         simp
         rw [strLoopF]
         norm_num [readByte, parseUnicodeCodepoint, hexStep, appendCodePoint,
           bind, Except.bind, Location.afterByte]
         rw [appendToBuf_lt _ _ (by simp; omega)])

set_option maxHeartbeats 800000 in
/-- The string-content loop of `parse_after_quote` run over the escaped form
of a string `s` followed by the closing quote: it accumulates exactly `s`
into the token buffer, consumes through the closing quote, and advances the
location by the consumed byte count (escaped output never contains a line
feed). -/
theorem strLoopF_scan : ∀ (s : List Nat) (cap : Nat) (buf : List Nat) (len : Bool)
    (sst : ReaderState) (loc : Location) (r2 : List Nat) (fuel : Nat),
    buf.length + s.length ≤ cap →
    (escBytes s ++ 34 :: r2).length < fuel →
    strLoopF fuel ⟨cap, buf, len, sst, none, loc, escBytes s ++ 34 :: r2⟩ =
      .ok ⟨cap, buf ++ s, len, sst, none,
        ⟨loc.offset + (escBytes s).length + 1, loc.line,
          loc.column + (escBytes s).length + 1⟩, r2⟩
  | [], cap, buf, len, sst, loc, r2, fuel => by
    intro hcap hf
    cases fuel with
    | zero => simp at hf
    | succ f =>
      simp [escBytes, strLoopF, readByte, Location.afterByte]
  | c :: cs, cap, buf, len, sst, loc, r2, fuel => by
    intro hcap hf
    cases fuel with
    | zero => simp at hf
    | succ f =>
      have hlt : buf.length < cap := by
        simp only [List.length_cons] at hcap
        omega
      have hge : ¬ (buf.length ≥ cap) := by omega
      rw [show escBytes (c :: cs) = escByte c ++ escBytes cs by
        simp [escBytes]] at hf ⊢
      have hfcs : (escBytes cs ++ 34 :: r2).length < f := by
        have hc1 : 1 ≤ (escByte c).length := by
          rw [escByte]
          repeat' split
          all_goals simp
        simp only [List.length_append] at hf ⊢
        omega
      by_cases h34 : c = 34
      · subst h34
        rw [show escByte 34 = [92, 34] from rfl]
        simp only [List.cons_append, List.nil_append]
        rw [strLoopF]
        simp only [readByte, Location.afterByte]
        norm_num
        rw [appendToBuf, if_neg hge]
        simp only [bind, Except.bind]
        rw [strLoopF_scan cs cap (buf ++ [34]) len sst _ r2 f
          (by simp only [List.length_append, List.length_cons, List.length_nil] at hcap ⊢; omega)
          hfcs]
        simp [escByte, List.append_assoc]
        omega
      · by_cases h92 : c = 92
        · subst h92
          rw [show escByte 92 = [92, 92] from rfl]
          simp only [List.cons_append, List.nil_append]
          rw [strLoopF]
          simp only [readByte, Location.afterByte]
          norm_num
          rw [appendToBuf, if_neg hge]
          simp only [bind, Except.bind]
          rw [strLoopF_scan cs cap (buf ++ [92]) len sst _ r2 f
            (by simp only [List.length_append, List.length_cons, List.length_nil] at hcap ⊢; omega)
            hfcs]
          simp [escByte, List.append_assoc]
          omega
        · by_cases h8 : c = 8
          · subst h8
            rw [show escByte 8 = [92, 98] from rfl]
            simp only [List.cons_append, List.nil_append]
            rw [strLoopF]
            simp only [readByte, Location.afterByte]
            norm_num
            rw [appendToBuf, if_neg hge]
            simp only [bind, Except.bind]
            rw [strLoopF_scan cs cap (buf ++ [8]) len sst _ r2 f
              (by simp only [List.length_append, List.length_cons, List.length_nil] at hcap ⊢; omega)
              hfcs]
            simp [escByte, List.append_assoc]
            omega
          · by_cases h12 : c = 12
            · subst h12
              rw [show escByte 12 = [92, 102] from rfl]
              simp only [List.cons_append, List.nil_append]
              rw [strLoopF]
              simp only [readByte, Location.afterByte]
              norm_num
              rw [appendToBuf, if_neg hge]
              simp only [bind, Except.bind]
              rw [strLoopF_scan cs cap (buf ++ [12]) len sst _ r2 f
                (by simp only [List.length_append, List.length_cons, List.length_nil] at hcap ⊢; omega)
                hfcs]
              simp [escByte, List.append_assoc]
              omega
            · by_cases h10 : c = 10
              · subst h10
                rw [show escByte 10 = [92, 110] from rfl]
                simp only [List.cons_append, List.nil_append]
                rw [strLoopF]
                simp only [readByte, Location.afterByte]
                norm_num
                rw [appendToBuf, if_neg hge]
                simp only [bind, Except.bind]
                rw [strLoopF_scan cs cap (buf ++ [10]) len sst _ r2 f
                  (by simp only [List.length_append, List.length_cons, List.length_nil] at hcap ⊢; omega)
                  hfcs]
                simp [escByte, List.append_assoc]
                omega
              · by_cases h13 : c = 13
                · subst h13
                  rw [show escByte 13 = [92, 114] from rfl]
                  simp only [List.cons_append, List.nil_append]
                  rw [strLoopF]
                  simp only [readByte, Location.afterByte]
                  norm_num
                  rw [appendToBuf, if_neg hge]
                  simp only [bind, Except.bind]
                  rw [strLoopF_scan cs cap (buf ++ [13]) len sst _ r2 f
                    (by simp only [List.length_append, List.length_cons, List.length_nil] at hcap ⊢; omega)
                    hfcs]
                  simp [escByte, List.append_assoc]
                  omega
                · by_cases h9 : c = 9
                  · subst h9
                    rw [show escByte 9 = [92, 116] from rfl]
                    simp only [List.cons_append, List.nil_append]
                    rw [strLoopF]
                    simp only [readByte, Location.afterByte]
                    norm_num
                    rw [appendToBuf, if_neg hge]
                    simp only [bind, Except.bind]
                    rw [strLoopF_scan cs cap (buf ++ [9]) len sst _ r2 f
                      (by simp only [List.length_append, List.length_cons, List.length_nil] at hcap ⊢; omega)
                      hfcs]
                    simp [escByte, List.append_assoc]
                    omega
                  · by_cases h32 : c < 32
                    · have hsh : c >>> 4 = c / 16 := by
                        rw [Nat.shiftRight_eq_div_pow]
                      have hand : c &&& 0xF = c % 16 := by
                        rw [show (0xF : Nat) = 2 ^ 4 - 1 from rfl,
                          Nat.and_pow_two_sub_one_eq_mod,
                          show (2 : Nat) ^ 4 = 16 from rfl]
                      have hescEq : escByte c = 92 :: 117 :: 48 :: 48 ::
                          HEX_DIGITS.getD (c / 16) 0 :: HEX_DIGITS.getD (c % 16) 0 :: [] := by
                        rw [escByte, if_neg h34, if_neg h92, if_neg h8, if_neg h12,
                          if_neg h10, if_neg h13, if_neg h9, if_pos h32, hsh, hand]
                      rw [hescEq]
                      simp only [List.cons_append, List.nil_append]
                      rw [strLoopF_u_step c (HEX_DIGITS.getD (c / 16) 0)
                        (HEX_DIGITS.getD (c % 16) 0) h32 h8 h9 h10 h12 h13 rfl rfl
                        f cap buf len sst loc (escBytes cs ++ 34 :: r2) hge]
                      rw [strLoopF_scan cs cap (buf ++ [c]) len sst _ r2 f
                        (by simp only [List.length_append, List.length_cons,
                              List.length_nil] at hcap ⊢; omega)
                        hfcs]
                      have hesc : (escByte c).length = 6 := by rw [hescEq]; rfl
                      simp [hesc, List.append_assoc]
                      omega
                    · rw [show escByte c = [c] by
                        rw [escByte, if_neg h34, if_neg h92, if_neg h8, if_neg h12,
                          if_neg h10, if_neg h13, if_neg h9, if_neg h32]]
                      simp only [List.cons_append, List.nil_append]
                      rw [strLoopF]
                      have hc10 : c ≠ 10 := h10
                      simp only [readByte, Location.afterByte]
                      rw [if_neg h34, if_neg h92]
                      simp only [hc10, if_false, if_neg hc10]
                      rw [appendToBuf, if_neg hge]
                      simp only [bind, Except.bind]
                      rw [strLoopF_scan cs cap (buf ++ [c]) len sst _ r2 f
                        (by simp only [List.length_append, List.length_cons,
                              List.length_nil] at hcap ⊢; omega)
                        hfcs]
                      simp [escByte, h34, h92, h8, h12, h10, h13, h9, h32,
                        List.append_assoc]
                      omega

/-- The number-accumulation loop over a run of number bytes followed by a
non-number boundary: the bytes join the buffer and the boundary byte (if any)
is parked. -/
theorem numLoopF_digits : ∀ (ds : List Nat) (cap : Nat) (buf : List Nat) (len : Bool)
    (sst : ReaderState) (loc : Location) (r : List Nat) (fuel : Nat),
    (∀ b ∈ ds, isNumByte b = true) →
    (∀ b ∈ r.head?, isNumByte b = false) →
    buf.length + ds.length ≤ cap →
    (ds ++ r).length < fuel →
    ∃ l, numLoopF fuel ⟨cap, buf, len, sst, none, loc, ds ++ r⟩ =
      .ok ⟨cap, buf ++ ds, len, sst, r.head?, l, r.tail⟩
  | [], cap, buf, len, sst, loc, r, fuel => by
    intro _ hr hcap hf
    cases fuel with
    | zero => simp at hf
    | succ f =>
      cases r with
      | nil => exact ⟨loc, by simp [numLoopF, readByte]⟩
      | cons b t =>
        have hb : isNumByte b = false := hr b (by simp)
        refine ⟨loc.afterByte b, ?_⟩
        simp [numLoopF, readByte, hb]
  | d :: ds', cap, buf, len, sst, loc, r, fuel => by
    intro hds hr hcap hf
    cases fuel with
    | zero => simp at hf
    | succ f =>
      have hd : isNumByte d = true := hds d (by simp)
      have hlt : buf.length < cap := by
        simp only [List.length_cons] at hcap
        omega
      obtain ⟨l, hrec⟩ := numLoopF_digits ds' cap (buf ++ [d]) len sst (loc.afterByte d) r f
        (fun b hb => hds b (List.mem_cons_of_mem d hb)) hr
        (by simp only [List.length_append, List.length_cons, List.length_nil] at hcap ⊢; omega)
        (by simp only [List.length_append, List.length_cons] at hf ⊢; omega)
      refine ⟨l, ?_⟩
      rw [numLoopF]
      simp only [List.cons_append, readByte, hd, if_true]
      rw [appendToBuf_lt _ _ (by simpa using hlt)]
      simp only [bind, Except.bind]
      rw [hrec]
      simp [List.append_assoc]

/-- `parse_number_literal` over a complete number literal `b0 :: ds` followed
by a non-number boundary emits the raw literal and parks the boundary byte. -/
theorem parseNumberLiteral_run (b0 : Nat) (ds : List Nat) (cap : Nat) (buf : List Nat)
    (len : Bool) (sst : ReaderState) (loc : Location) (r : List Nat)
    (hds : ∀ b ∈ ds, isNumByte b = true)
    (hr : ∀ b ∈ r.head?, isNumByte b = false)
    (hascii : ∀ b ∈ b0 :: ds, b ≤ 127)
    (hcap : 1 + ds.length ≤ cap) :
    ∃ l, parseNumberLiteral b0 ⟨cap, buf, len, sst, none, loc, ds ++ r⟩ =
      .ok (.numberLit (b0 :: ds), ⟨cap, b0 :: ds, len, sst, r.head?, l, r.tail⟩) := by
  obtain ⟨l, hloop⟩ := numLoopF_digits ds cap [b0] len sst loc r ((ds ++ r).length + 1)
    hds hr (by simpa using hcap) (by omega)
  refine ⟨l, ?_⟩
  rw [parseNumberLiteral, if_neg (show ¬ cap = 0 by omega)]
  simp only [bind, Except.bind, RdSt.remaining, List.nil_append]
  rw [hloop]
  have hv : isValidUtf8 (b0 :: ds) = true := isValidUtf8_ascii (b0 :: ds) hascii
  simp [bufAsStr, hv]

/-- `parse_after_quote` over an escaped string value: the closing quote is
followed by a boundary byte that is neither whitespace nor a colon (or by the
end of the stream), so the content is emitted as a `StringLiteral` and the
state moves to `AfterValue`. -/
theorem parseAfterQuote_stringValue (s : List Nat) (cap : Nat) (buf0 : List Nat)
    (len : Bool) (sst : ReaderState) (loc : Location) (r : List Nat)
    (hval : isValidUtf8 s = true) (hcap : s.length ≤ cap) (hsst : sst ≠ .afterValue)
    (hr : ∀ b ∈ r.head?, isWsByte b = false ∧ b ≠ 58) :
    ∃ l, parseAfterQuote ⟨cap, buf0, len, sst, none, loc, escBytes s ++ 34 :: r⟩ =
      .ok (.stringLit s, ⟨cap, s, len, .afterValue, r.head?, l, r.tail⟩) := by
  rw [parseAfterQuote]
  simp only [bind, Except.bind, RdSt.remaining, List.nil_append]
  rw [strLoopF_scan s cap [] len sst loc r ((escBytes s ++ 34 :: r).length + 1)
    (by simpa using hcap) (by omega)]
  cases r with
  | nil =>
    refine ⟨⟨loc.offset + (escBytes s).length + 1, loc.line,
      loc.column + (escBytes s).length + 1⟩, ?_⟩
    simp only [consumeWhitespace, RdSt.remaining, List.nil_append, List.length_nil,
      consumeWsF, readByte]
    rw [stateChangeForValue.eq_def]
    cases sst with
    | afterValue => exact absurd rfl hsst
    | initial => simp [bufAsStr, hval]
    | beforeEntry => simp [bufAsStr, hval]
    | afterKey => simp [bufAsStr, hval]
  | cons b t =>
    obtain ⟨hws, h58⟩ := hr b (by simp)
    obtain ⟨l2, hcw⟩ := consumeWsF_not_ws (t.length + 1)
      ⟨cap, s, len, sst, none,
        ⟨loc.offset + (escBytes s).length + 1, loc.line,
          loc.column + (escBytes s).length + 1⟩, b :: t⟩ b t (by simp [RdSt.remaining]) hws
    refine ⟨l2, ?_⟩
    simp only [consumeWhitespace, RdSt.remaining, List.nil_append, List.length_cons]
    rw [hcw]
    simp only [readByte]
    split
    · rename_i st' heq
      simp only [Prod.mk.injEq, Option.some.injEq] at heq
      exact absurd heq.1 h58
    · rename_i other st' heq
      simp only [Prod.mk.injEq, Option.some.injEq] at heq
      obtain ⟨hother, hst'⟩ := heq
      subst hother
      subst hst'
      rw [stateChangeForValue.eq_def]
      cases sst with
      | afterValue => exact absurd rfl hsst
      | initial => simp [bufAsStr, hval, bind, Except.bind]
      | beforeEntry => simp [bufAsStr, hval, bind, Except.bind]
      | afterKey => simp [bufAsStr, hval, bind, Except.bind]

theorem writeEscapedString_listSink {ε : Type} (s out : List Nat) :
    writeEscapedString listSink (⟨out, none⟩ : WrSt (List Nat) ε) s =
      (.ok (), ⟨out ++ ([34] ++ escBytes s ++ [34]), none⟩) := by
  simp only [writeEscapedString, writeBytes_listSink, wbind]
  rw [escLoop_listSink]
  simp only [wbind, writeBytes_listSink]
  simp [List.append_assoc]

theorem writeBool_listSink {ε : Type} (b : Bool) (out : List Nat) :
    writeBool listSink (⟨out, none⟩ : WrSt (List Nat) ε) b =
      (.ok (), ⟨out ++ (if b then [116, 114, 117, 101] else [102, 97, 108, 115, 101]), none⟩) := by
  cases b <;> rfl

theorem writeRawNum_listSink {ε : Type} (n : Int) (out : List Nat) :
    writeRawNum listSink (⟨out, none⟩ : WrSt (List Nat) ε) n =
      (.ok (), ⟨out ++ intBytes n, none⟩) := rfl

theorem objNew_listSink {ε : Type} (out : List Nat) :
    objNew listSink (⟨out, none⟩ : WrSt (List Nat) ε) =
      (.ok ⟨true, false⟩, ⟨out ++ [123], none⟩) := rfl

theorem arrNew_listSink {ε : Type} (out : List Nat) :
    arrNew listSink (⟨out, none⟩ : WrSt (List Nat) ε) =
      (.ok ⟨true, false⟩, ⟨out ++ [91], none⟩) := rfl

theorem objEndCore_listSink {ε : Type} (o : ScopeSt) (out : List Nat) :
    objEndCore listSink o (⟨out, none⟩ : WrSt (List Nat) ε) =
      (.ok { o with isEnded := true }, ⟨out ++ [125], none⟩) := rfl

theorem arrEndCore_listSink {ε : Type} (a : ScopeSt) (out : List Nat) :
    arrEndCore listSink a (⟨out, none⟩ : WrSt (List Nat) ε) =
      (.ok { a with isEnded := true }, ⟨out ++ [93], none⟩) := rfl

theorem arrHandleInitial_listSink {ε : Type} (i b : Bool) (out : List Nat) :
    arrHandleInitial listSink ⟨i, b⟩ (⟨out, none⟩ : WrSt (List Nat) ε) =
      (.ok ⟨false, b⟩, ⟨out ++ cond i [] [44], none⟩) := by
  cases i <;>
    simp [arrHandleInitial, wbind, writeBytes_listSink, writeFormatHookCompact_listSink]

theorem objWriteKey_listSink {ε : Type} (i b : Bool) (k out : List Nat) :
    objWriteKey listSink ⟨i, b⟩ k (⟨out, none⟩ : WrSt (List Nat) ε) =
      (.ok ⟨false, b⟩,
        ⟨out ++ cond i [] [44] ++ ([34] ++ escBytes k ++ [34, 58]), none⟩) := by
  cases i <;>
    simp only [objWriteKey, ScopeSt.isInitial, if_true, if_false, Bool.false_eq_true, wbind,
      writeBytes_listSink, writeFormatHookCompact_listSink, writeEscapedString_listSink] <;>
    simp [List.append_assoc]

mutual

theorem writeArrElems_listSink {ε : Type} :
    ∀ (a : JsonArrVal) (i b : Bool) (out : List Nat),
      ∃ sc', writeArrElems listSink a ⟨i, b⟩ (⟨out, none⟩ : WrSt (List Nat) ε) =
        (.ok sc', ⟨out ++ cond i (arrBytes a) (sepArrBytes a), none⟩)
  | .nil, i, b, out => ⟨⟨i, b⟩, by cases i <;> simp [writeArrElems, arrBytes, sepArrBytes]⟩
  | .cons v rest, i, b, out => by
    cases v with
    | str s =>
      obtain ⟨sc', hrest⟩ := writeArrElems_listSink rest false b
        (out ++ cond i [] [44] ++ ([34] ++ escBytes s ++ [34]))
      refine ⟨sc', ?_⟩
      simp only [writeArrElems, arrWriteStringValue, wbind, arrHandleInitial_listSink,
        writeEscapedString_listSink]
      rw [hrest]
      cases i <;> simp [arrBytes, sepArrBytes, jsonBytes, List.append_assoc]
    | num n =>
      obtain ⟨sc', hrest⟩ := writeArrElems_listSink rest false b
        (out ++ cond i [] [44] ++ intBytes n)
      refine ⟨sc', ?_⟩
      simp only [writeArrElems, arrWriteIntValue, wbind, arrHandleInitial_listSink,
        writeRawNum_listSink]
      rw [hrest]
      cases i <;> simp [arrBytes, sepArrBytes, jsonBytes, List.append_assoc]
    | boolV bv =>
      obtain ⟨sc', hrest⟩ := writeArrElems_listSink rest false b
        (out ++ cond i [] [44] ++ (if bv then [116, 114, 117, 101] else [102, 97, 108, 115, 101]))
      refine ⟨sc', ?_⟩
      simp only [writeArrElems, arrWriteBoolValue, wbind, arrHandleInitial_listSink,
        writeBool_listSink]
      rw [hrest]
      cases i <;> cases bv <;> simp [arrBytes, sepArrBytes, jsonBytes, List.append_assoc]
    | nullV =>
      obtain ⟨sc', hrest⟩ := writeArrElems_listSink rest false b
        (out ++ cond i [] [44] ++ [110, 117, 108, 108])
      refine ⟨sc', ?_⟩
      simp only [writeArrElems, arrWriteNullValue, wbind, arrHandleInitial_listSink,
        writeBytes_listSink]
      rw [hrest]
      cases i <;> simp [arrBytes, sepArrBytes, jsonBytes, List.append_assoc]
    | arr a2 =>
      obtain ⟨in1, hinner⟩ := writeArrElems_listSink a2 true false
        (out ++ cond i [] [44] ++ [91])
      obtain ⟨sc', hrest⟩ := writeArrElems_listSink rest false b
        (out ++ cond i [] [44] ++ [91] ++ cond true (arrBytes a2) (sepArrBytes a2) ++ [93])
      refine ⟨sc', ?_⟩
      simp only [writeArrElems, wbind, arrHandleInitial_listSink, arrNew_listSink]
      rw [hinner]
      simp only [wbind, arrEndCore_listSink]
      rw [hrest]
      cases i <;> simp [arrBytes, sepArrBytes, jsonBytes, List.append_assoc]
    | obj o2 =>
      obtain ⟨in1, hinner⟩ := writeObjFields_listSink o2 true false
        (out ++ cond i [] [44] ++ [123])
      obtain ⟨sc', hrest⟩ := writeArrElems_listSink rest false b
        (out ++ cond i [] [44] ++ [123] ++ cond true (objBytes o2) (sepObjBytes o2) ++ [125])
      refine ⟨sc', ?_⟩
      simp only [writeArrElems, wbind, arrHandleInitial_listSink, objNew_listSink]
      rw [hinner]
      simp only [wbind, objEndCore_listSink]
      rw [hrest]
      cases i <;> simp [arrBytes, sepArrBytes, jsonBytes, List.append_assoc]

theorem writeObjFields_listSink {ε : Type} :
    ∀ (o : JsonObjVal) (i b : Bool) (out : List Nat),
      ∃ sc', writeObjFields listSink o ⟨i, b⟩ (⟨out, none⟩ : WrSt (List Nat) ε) =
        (.ok sc', ⟨out ++ cond i (objBytes o) (sepObjBytes o), none⟩)
  | .nil, i, b, out => ⟨⟨i, b⟩, by cases i <;> simp [writeObjFields, objBytes, sepObjBytes]⟩
  | .cons k v rest, i, b, out => by
    cases v with
    | str s =>
      obtain ⟨sc', hrest⟩ := writeObjFields_listSink rest false b
        (out ++ cond i [] [44] ++ ([34] ++ escBytes k ++ [34, 58]) ++ ([34] ++ escBytes s ++ [34]))
      refine ⟨sc', ?_⟩
      simp only [writeObjFields, objWriteStringValue, wbind, objWriteKey_listSink,
        writeEscapedString_listSink]
      rw [hrest]
      cases i <;> simp [objBytes, sepObjBytes, jsonBytes, List.append_assoc]
    | num n =>
      obtain ⟨sc', hrest⟩ := writeObjFields_listSink rest false b
        (out ++ cond i [] [44] ++ ([34] ++ escBytes k ++ [34, 58]) ++ intBytes n)
      refine ⟨sc', ?_⟩
      simp only [writeObjFields, objWriteIntValue, wbind, objWriteKey_listSink,
        writeRawNum_listSink]
      rw [hrest]
      cases i <;> simp [objBytes, sepObjBytes, jsonBytes, List.append_assoc]
    | boolV bv =>
      obtain ⟨sc', hrest⟩ := writeObjFields_listSink rest false b
        (out ++ cond i [] [44] ++ ([34] ++ escBytes k ++ [34, 58]) ++
          (if bv then [116, 114, 117, 101] else [102, 97, 108, 115, 101]))
      refine ⟨sc', ?_⟩
      simp only [writeObjFields, objWriteBoolValue, wbind, objWriteKey_listSink,
        writeBool_listSink]
      rw [hrest]
      cases i <;> cases bv <;> simp [objBytes, sepObjBytes, jsonBytes, List.append_assoc]
    | nullV =>
      obtain ⟨sc', hrest⟩ := writeObjFields_listSink rest false b
        (out ++ cond i [] [44] ++ ([34] ++ escBytes k ++ [34, 58]) ++ [110, 117, 108, 108])
      refine ⟨sc', ?_⟩
      simp only [writeObjFields, objWriteNullValue, wbind, objWriteKey_listSink,
        writeBytes_listSink]
      rw [hrest]
      cases i <;> simp [objBytes, sepObjBytes, jsonBytes, List.append_assoc]
    | arr a2 =>
      obtain ⟨in1, hinner⟩ := writeArrElems_listSink a2 true false
        (out ++ cond i [] [44] ++ ([34] ++ escBytes k ++ [34, 58]) ++ [91])
      obtain ⟨sc', hrest⟩ := writeObjFields_listSink rest false b
        (out ++ cond i [] [44] ++ ([34] ++ escBytes k ++ [34, 58]) ++ [91] ++
          cond true (arrBytes a2) (sepArrBytes a2) ++ [93])
      refine ⟨sc', ?_⟩
      simp only [writeObjFields, wbind, objWriteKey_listSink, arrNew_listSink]
      rw [hinner]
      simp only [wbind, arrEndCore_listSink]
      rw [hrest]
      cases i <;> simp [objBytes, sepObjBytes, jsonBytes, List.append_assoc]
    | obj o2 =>
      obtain ⟨in1, hinner⟩ := writeObjFields_listSink o2 true false
        (out ++ cond i [] [44] ++ ([34] ++ escBytes k ++ [34, 58]) ++ [123])
      obtain ⟨sc', hrest⟩ := writeObjFields_listSink rest false b
        (out ++ cond i [] [44] ++ ([34] ++ escBytes k ++ [34, 58]) ++ [123] ++
          cond true (objBytes o2) (sepObjBytes o2) ++ [125])
      refine ⟨sc', ?_⟩
      simp only [writeObjFields, wbind, objWriteKey_listSink, objNew_listSink]
      rw [hinner]
      simp only [wbind, objEndCore_listSink]
      rw [hrest]
      cases i <;> simp [objBytes, sepObjBytes, jsonBytes, List.append_assoc]

end

/-- Driving the writer over the in-memory sink with a whole value tree
produces exactly the closed-form compact bytes. -/
theorem writeTopValue_listSink {ε : Type} (v : JsonValue) (out : List Nat) :
    writeTopValue listSink v (⟨out, none⟩ : WrSt (List Nat) ε) =
      (.ok (), ⟨out ++ jsonBytes v, none⟩) := by
  cases v with
  | str s => simp [writeTopValue, writeEscapedString_listSink, jsonBytes]
  | num n => simp [writeTopValue, writeRawNum_listSink, jsonBytes]
  | boolV bv => cases bv <;> simp [writeTopValue, writeBool_listSink, jsonBytes]
  | nullV => simp [writeTopValue, writeBytes_listSink, jsonBytes]
  | arr a =>
    obtain ⟨sc', h⟩ := writeArrElems_listSink a true false (out ++ [91])
    simp only [writeTopValue, wbind, arrNew_listSink]
    rw [h]
    simp only [wbind, arrEndCore_listSink]
    simp [jsonBytes, List.append_assoc]
  | obj o =>
    obtain ⟨sc', h⟩ := writeObjFields_listSink o true false (out ++ [123])
    simp only [writeTopValue, wbind, objNew_listSink]
    rw [h]
    simp only [wbind, objEndCore_listSink]
    simp [jsonBytes, List.append_assoc]

/-- The compact serialization of a value tree equals its closed form. -/
theorem serializeCompact_eq (v : JsonValue) : serializeCompact v = jsonBytes v := by
  simp [serializeCompact, writeTopValue_listSink]


theorem headTail_remaining (cap : Nat) (buf : List Nat) (len : Bool) (sst : ReaderState)
    (l : Location) (r : List Nat) :
    (⟨cap, buf, len, sst, r.head?, l, r.tail⟩ : RdSt).remaining = r := by
  cases r <;> simp [RdSt.remaining]

theorem isNumByte_digit (b : Nat) (h : 48 ≤ b ∧ b ≤ 57) : isNumByte b = true := by
  simp only [isNumByte, decide_eq_true_eq]
  exact Or.inl h

theorem intBytes_decomp (n : Int) : ∃ b0 ds, intBytes n = b0 :: ds ∧
    (b0 = 45 ∨ (48 ≤ b0 ∧ b0 ≤ 57)) ∧ (∀ b ∈ ds, 48 ≤ b ∧ b ≤ 57) := by
  rw [intBytes]
  split
  · exact ⟨45, natBytes n.natAbs, rfl, Or.inl rfl, fun b hb => natBytes_digits _ b hb⟩
  · cases hnb : natBytes n.natAbs with
    | nil => exact absurd hnb (natBytes_ne_nil _)
    | cons b0 ds =>
      refine ⟨b0, ds, rfl, Or.inr ?_, fun b hb => natBytes_digits _ b (by rw [hnb]; exact List.mem_cons_of_mem _ hb)⟩
      exact natBytes_digits n.natAbs b0 (by rw [hnb]; simp)

theorem next_startObject (st : RdSt) (r : List Nat)
    (h : st.remaining = 123 :: r) (hs : st.state ≠ .afterValue) :
    ∃ l, next st = .ok (.startObject,
      ⟨st.bufCap, st.buf, st.lenient, .initial, none, l, r⟩) := by
  obtain ⟨l, he⟩ := next_entry st 123 r h (by decide)
  refine ⟨l, ?_⟩
  rw [he]
  cases hst : st.state with
  | afterValue => exact absurd hst hs
  | initial => simp [dispatch, ensureAcceptValue, bind, Except.bind]
  | beforeEntry => simp [dispatch, ensureAcceptValue, bind, Except.bind]
  | afterKey => simp [dispatch, ensureAcceptValue, bind, Except.bind]

theorem next_startArray (st : RdSt) (r : List Nat)
    (h : st.remaining = 91 :: r) (hs : st.state ≠ .afterValue) :
    ∃ l, next st = .ok (.startArray,
      ⟨st.bufCap, st.buf, st.lenient, .initial, none, l, r⟩) := by
  obtain ⟨l, he⟩ := next_entry st 91 r h (by decide)
  refine ⟨l, ?_⟩
  rw [he]
  cases hst : st.state with
  | afterValue => exact absurd hst hs
  | initial => simp [dispatch, ensureAcceptValue, bind, Except.bind]
  | beforeEntry => simp [dispatch, ensureAcceptValue, bind, Except.bind]
  | afterKey => simp [dispatch, ensureAcceptValue, bind, Except.bind]

theorem next_endObject (st : RdSt) (r : List Nat)
    (h : st.remaining = 125 :: r) (hs : st.state = .initial ∨ st.state = .afterValue) :
    ∃ l, next st = .ok (.endObject,
      ⟨st.bufCap, st.buf, st.lenient, .afterValue, none, l, r⟩) := by
  obtain ⟨l, he⟩ := next_entry st 125 r h (by decide)
  refine ⟨l, ?_⟩
  rw [he]
  rcases hs with hst | hst <;>
    simp [dispatch, ensureAcceptEndNested, hst, bind, Except.bind]

theorem next_endArray (st : RdSt) (r : List Nat)
    (h : st.remaining = 93 :: r) (hs : st.state = .initial ∨ st.state = .afterValue) :
    ∃ l, next st = .ok (.endArray,
      ⟨st.bufCap, st.buf, st.lenient, .afterValue, none, l, r⟩) := by
  obtain ⟨l, he⟩ := next_entry st 93 r h (by decide)
  refine ⟨l, ?_⟩
  rw [he]
  rcases hs with hst | hst <;>
    simp [dispatch, ensureAcceptEndNested, hst, bind, Except.bind]

theorem next_null (st : RdSt) (r : List Nat)
    (h : st.remaining = 110 :: 117 :: 108 :: 108 :: r) (hs : st.state ≠ .afterValue) :
    ∃ l, next st = .ok (.nullLit,
      ⟨st.bufCap, st.buf, st.lenient, .afterValue, none, l, r⟩) := by
  obtain ⟨l, he⟩ := next_entry st 110 (117 :: 108 :: 108 :: r) h (by decide)
  refine ⟨((l.afterByte 117).afterByte 108).afterByte 108, ?_⟩
  rw [he]
  cases hst : st.state with
  | afterValue => exact absurd hst hs
  | initial => simp [dispatch, stateChangeForValue, consumeNullLiteral, readByte, bind, Except.bind]
  | beforeEntry => simp [dispatch, stateChangeForValue, consumeNullLiteral, readByte, bind, Except.bind]
  | afterKey => simp [dispatch, stateChangeForValue, consumeNullLiteral, readByte, bind, Except.bind]

theorem next_true (st : RdSt) (r : List Nat)
    (h : st.remaining = 116 :: 114 :: 117 :: 101 :: r) (hs : st.state ≠ .afterValue) :
    ∃ l, next st = .ok (.boolLit true,
      ⟨st.bufCap, st.buf, st.lenient, .afterValue, none, l, r⟩) := by
  obtain ⟨l, he⟩ := next_entry st 116 (114 :: 117 :: 101 :: r) h (by decide)
  refine ⟨((l.afterByte 114).afterByte 117).afterByte 101, ?_⟩
  rw [he]
  cases hst : st.state with
  | afterValue => exact absurd hst hs
  | initial => simp [dispatch, stateChangeForValue, consumeTrueLiteral, readByte, bind, Except.bind]
  | beforeEntry => simp [dispatch, stateChangeForValue, consumeTrueLiteral, readByte, bind, Except.bind]
  | afterKey => simp [dispatch, stateChangeForValue, consumeTrueLiteral, readByte, bind, Except.bind]

theorem next_false (st : RdSt) (r : List Nat)
    (h : st.remaining = 102 :: 97 :: 108 :: 115 :: 101 :: r) (hs : st.state ≠ .afterValue) :
    ∃ l, next st = .ok (.boolLit false,
      ⟨st.bufCap, st.buf, st.lenient, .afterValue, none, l, r⟩) := by
  obtain ⟨l, he⟩ := next_entry st 102 (97 :: 108 :: 115 :: 101 :: r) h (by decide)
  refine ⟨(((l.afterByte 97).afterByte 108).afterByte 115).afterByte 101, ?_⟩
  rw [he]
  cases hst : st.state with
  | afterValue => exact absurd hst hs
  | initial => simp [dispatch, stateChangeForValue, consumeFalseLiteral, readByte, bind, Except.bind]
  | beforeEntry => simp [dispatch, stateChangeForValue, consumeFalseLiteral, readByte, bind, Except.bind]
  | afterKey => simp [dispatch, stateChangeForValue, consumeFalseLiteral, readByte, bind, Except.bind]

theorem next_string (st : RdSt) (s r : List Nat)
    (h : st.remaining = 34 :: (escBytes s ++ 34 :: r))
    (hs : st.state ≠ .afterValue) (hval : isValidUtf8 s = true) (hcap : s.length ≤ st.bufCap)
    (hr : ∀ b ∈ r.head?, isWsByte b = false ∧ b ≠ 58) :
    ∃ l, next st = .ok (.stringLit s,
      ⟨st.bufCap, s, st.lenient, .afterValue, r.head?, l, r.tail⟩) := by
  obtain ⟨l, he⟩ := next_entry st 34 (escBytes s ++ 34 :: r) h (by decide)
  obtain ⟨l2, hq⟩ := parseAfterQuote_stringValue s st.bufCap st.buf st.lenient st.state l r
    hval hcap hs hr
  refine ⟨l2, ?_⟩
  rw [he]
  simp only [dispatch, reduceIte]
  exact hq

theorem next_number (st : RdSt) (b0 : Nat) (ds r : List Nat)
    (h : st.remaining = b0 :: (ds ++ r))
    (hs : st.state ≠ .afterValue)
    (hb0 : b0 = 45 ∨ (48 ≤ b0 ∧ b0 ≤ 57))
    (hds : ∀ b ∈ ds, 48 ≤ b ∧ b ≤ 57)
    (hr : ∀ b ∈ r.head?, isNumByte b = false)
    (hcap : 1 + ds.length ≤ st.bufCap) :
    ∃ l, next st = .ok (.numberLit (b0 :: ds),
      ⟨st.bufCap, b0 :: ds, st.lenient, .afterValue, r.head?, l, r.tail⟩) := by
  obtain ⟨l, he⟩ := next_entry st b0 (ds ++ r) h (by simp [isWsByte]; omega)
  obtain ⟨l2, hp⟩ := parseNumberLiteral_run b0 ds st.bufCap st.buf st.lenient .afterValue l r
    (fun b hb => isNumByte_digit b (hds b hb))
    hr
    (fun b hb => by
      rcases List.mem_cons.mp hb with rfl | hb
      · omega
      · have := hds b hb; omega)
    hcap
  refine ⟨l2, ?_⟩
  rw [he]
  rw [dispatch.eq_def]
  rw [if_neg (show ¬ b0 = 44 by omega), if_neg (show ¬ b0 = 123 by omega),
    if_neg (show ¬ b0 = 125 by omega), if_neg (show ¬ b0 = 91 by omega),
    if_neg (show ¬ b0 = 93 by omega), if_neg (show ¬ b0 = 110 by omega),
    if_neg (show ¬ b0 = 116 by omega), if_neg (show ¬ b0 = 102 by omega),
    if_neg (show ¬ b0 = 34 by omega)]
  cases hst : st.state with
  | afterValue => exact absurd hst hs
  | initial =>
    simp only [stateChangeForValue, bind, Except.bind]
    rw [if_pos hb0]
    exact hp
  | beforeEntry =>
    simp only [stateChangeForValue, bind, Except.bind]
    rw [if_pos hb0]
    exact hp
  | afterKey =>
    simp only [stateChangeForValue, bind, Except.bind]
    rw [if_pos hb0]
    exact hp



theorem parseAfterQuote_key (k : List Nat) (cap : Nat) (buf0 : List Nat) (len : Bool)
    (sst : ReaderState) (loc : Location) (rest : List Nat)
    (hval : isValidUtf8 k = true) (hcap : k.length ≤ cap)
    (hsst : sst = .initial ∨ sst = .beforeEntry) :
    ∃ l, parseAfterQuote ⟨cap, buf0, len, sst, none, loc, escBytes k ++ 34 :: 58 :: rest⟩ =
      .ok (.key k, ⟨cap, k, len, .afterKey, none, l, rest⟩) := by
  rw [parseAfterQuote]
  simp only [bind, Except.bind, RdSt.remaining, List.nil_append]
  rw [strLoopF_scan k cap [] len sst loc (58 :: rest)
    ((escBytes k ++ 34 :: 58 :: rest).length + 1) (by simpa using hcap) (by omega)]
  obtain ⟨l2, hcw⟩ := consumeWsF_not_ws (rest.length + 1)
    ⟨cap, k, len, sst, none,
      ⟨loc.offset + (escBytes k).length + 1, loc.line,
        loc.column + (escBytes k).length + 1⟩, 58 :: rest⟩ 58 rest
    (by simp [RdSt.remaining]) (by decide)
  refine ⟨l2, ?_⟩
  simp only [consumeWhitespace, RdSt.remaining, List.nil_append, List.length_cons]
  rw [hcw]
  simp only [readByte]
  rcases hsst with rfl | rfl <;> simp [bufAsStr, hval]

theorem next_key (st : RdSt) (k rest : List Nat)
    (h : st.remaining = 34 :: (escBytes k ++ 34 :: 58 :: rest))
    (hs : st.state = .initial ∨ st.state = .beforeEntry)
    (hval : isValidUtf8 k = true) (hcap : k.length ≤ st.bufCap) :
    ∃ l, next st = .ok (.key k,
      ⟨st.bufCap, k, st.lenient, .afterKey, none, l, rest⟩) := by
  obtain ⟨l, he⟩ := next_entry st 34 (escBytes k ++ 34 :: 58 :: rest) h (by decide)
  obtain ⟨l2, hq⟩ := parseAfterQuote_key k st.bufCap st.buf st.lenient st.state l rest
    hval hcap hs
  refine ⟨l2, ?_⟩
  rw [he]
  simp only [dispatch, reduceIte]
  exact hq



theorem readN_cons (n : Nat) (st st₁ : RdSt) (t : Tok) (h : next st = .ok (t, st₁)) :
    readN (n + 1) st = (readN n st₁).map fun q => (t :: q.1, q.2) := by
  simp only [readN, h, bind, Except.bind]
  cases hq : readN n st₁ with
  | error e => simp [Except.map]
  | ok q => simp [Except.map]

theorem readN_split (m n : Nat) (st st₁ : RdSt) (ts : List Tok)
    (h : readN m st = .ok (ts, st₁)) :
    readN (m + n) st = (readN n st₁).map fun q => (ts ++ q.1, q.2) := by
  rw [readN_add]
  simp only [h, Except.bind]

theorem head_sepArr (rest : JsonArrVal) (c : Nat) (r : List Nat) (hc : c = 44 ∨ c = 93 ∨ c = 125) :
    ∀ b ∈ (sepArrBytes rest ++ c :: r).head?, b = 44 ∨ b = 93 ∨ b = 125 := by
  cases rest <;> simp [sepArrBytes] <;> tauto

theorem head_sepObj (rest : JsonObjVal) (c : Nat) (r : List Nat) (hc : c = 44 ∨ c = 93 ∨ c = 125) :
    ∀ b ∈ (sepObjBytes rest ++ c :: r).head?, b = 44 ∨ b = 93 ∨ b = 125 := by
  cases rest <;> simp [sepObjBytes] <;> tauto

mutual

theorem readValue_spec : ∀ (v : JsonValue) (st : RdSt) (r : List Nat),
    validVal v = true → maxLit v ≤ st.bufCap → st.state ≠ .afterValue →
    st.remaining = jsonBytes v ++ r →
    (∀ b ∈ r.head?, b = 44 ∨ b = 93 ∨ b = 125) →
    ∃ st', readN (tokensOf v).length st = .ok (tokensOf v, st') ∧
      st'.bufCap = st.bufCap ∧ st'.lenient = st.lenient ∧
      st'.state = .afterValue ∧ st'.remaining = r
  | .str s, st, r => by
    intro hval hcap hsst hrem hbnd
    simp only [jsonBytes, List.append_assoc, List.cons_append, List.nil_append] at hrem
    obtain ⟨l, hn⟩ := next_string st s r hrem hsst (by simpa [validVal] using hval)
      (by simpa [maxLit] using hcap)
      (fun b hb => by rcases hbnd b hb with rfl | rfl | rfl <;> exact ⟨by decide, by decide⟩)
    refine ⟨⟨st.bufCap, s, st.lenient, .afterValue, r.head?, l, r.tail⟩,
      ?_, rfl, rfl, rfl, headTail_remaining _ _ _ _ _ _⟩
    simp [tokensOf, readN, hn, bind, Except.bind]
  | .num n, st, r => by
    intro hval hcap hsst hrem hbnd
    obtain ⟨b0, ds, heq, hb0, hds⟩ := intBytes_decomp n
    simp only [jsonBytes, heq, List.cons_append] at hrem
    have hcap' : 1 + ds.length ≤ st.bufCap := by
      simp only [maxLit, heq, List.length_cons] at hcap
      omega
    obtain ⟨l, hn⟩ := next_number st b0 ds r hrem hsst hb0 hds
      (fun b hb => by rcases hbnd b hb with rfl | rfl | rfl <;> decide) hcap'
    refine ⟨⟨st.bufCap, b0 :: ds, st.lenient, .afterValue, r.head?, l, r.tail⟩,
      ?_, rfl, rfl, rfl, headTail_remaining _ _ _ _ _ _⟩
    simp [tokensOf, heq, readN, hn, bind, Except.bind]
  | .boolV bv, st, r => by
    intro hval hcap hsst hrem hbnd
    cases bv with
    | false =>
      simp only [jsonBytes, Bool.false_eq_true, if_false, List.cons_append,
        List.nil_append] at hrem
      obtain ⟨l, hn⟩ := next_false st r hrem hsst
      refine ⟨⟨st.bufCap, st.buf, st.lenient, .afterValue, none, l, r⟩,
        ?_, rfl, rfl, rfl, by simp [RdSt.remaining]⟩
      simp [tokensOf, readN, hn, bind, Except.bind]
    | true =>
      simp only [jsonBytes, if_true, List.cons_append, List.nil_append] at hrem
      obtain ⟨l, hn⟩ := next_true st r hrem hsst
      refine ⟨⟨st.bufCap, st.buf, st.lenient, .afterValue, none, l, r⟩,
        ?_, rfl, rfl, rfl, by simp [RdSt.remaining]⟩
      simp [tokensOf, readN, hn, bind, Except.bind]
  | .nullV, st, r => by
    intro hval hcap hsst hrem hbnd
    simp only [jsonBytes, List.cons_append, List.nil_append] at hrem
    obtain ⟨l, hn⟩ := next_null st r hrem hsst
    refine ⟨⟨st.bufCap, st.buf, st.lenient, .afterValue, none, l, r⟩,
      ?_, rfl, rfl, rfl, by simp [RdSt.remaining]⟩
    simp [tokensOf, readN, hn, bind, Except.bind]
  | .arr a, st, r => by
    intro hval hcap hsst hrem hbnd
    cases a with
    | nil =>
      simp only [jsonBytes, arrBytes, List.cons_append, List.nil_append] at hrem
      obtain ⟨l1, h1⟩ := next_startArray st (93 :: r) hrem hsst
      obtain ⟨l2, h2⟩ := next_endArray
        ⟨st.bufCap, st.buf, st.lenient, .initial, none, l1, 93 :: r⟩ r
        (by simp [RdSt.remaining]) (Or.inl rfl)
      refine ⟨⟨st.bufCap, st.buf, st.lenient, .afterValue, none, l2, r⟩, ?_, rfl, rfl, rfl,
        by simp [RdSt.remaining]⟩
      simp [tokensOf, arrToks, readN, h1, h2, bind, Except.bind]
    | cons v rest =>
      simp only [jsonBytes, arrBytes, List.append_assoc, List.cons_append,
        List.nil_append] at hrem
      obtain ⟨l1, h1⟩ := next_startArray st _ hrem hsst
      have hval2 : validVal v = true ∧ validArr rest = true := by
        simpa [validVal, validArr, Bool.and_eq_true] using hval
      have hcap2 : maxLit v ≤ st.bufCap ∧ maxLitArr rest ≤ st.bufCap := by
        simp only [maxLit, maxLitArr] at hcap
        exact ⟨le_trans (Nat.le_max_left _ _) hcap, le_trans (Nat.le_max_right _ _) hcap⟩
      obtain ⟨st₂, h2, hbc2, hl2, hst2, hrem2⟩ := readValue_spec v
        ⟨st.bufCap, st.buf, st.lenient, .initial, none, l1,
          jsonBytes v ++ (sepArrBytes rest ++ 93 :: r)⟩
        (sepArrBytes rest ++ 93 :: r) hval2.1 hcap2.1 (by simp) (by simp [RdSt.remaining])
        (head_sepArr rest 93 r (Or.inr (Or.inl rfl)))
      obtain ⟨st₃, h3, hbc3, hl3, hst3, hrem3⟩ := readArrTail_spec rest st₂ r hval2.2
        (by rw [hbc2]; exact hcap2.2) hst2 (by rw [hrem2]) hbnd
      refine ⟨st₃, ?_, by rw [hbc3, hbc2], by rw [hl3, hl2], hst3, hrem3⟩
      have hcount : (tokensOf (.arr (.cons v rest))).length
          = ((tokensOf v).length + ((arrToks rest).length + 1)) + 1 := by
        simp [tokensOf, arrToks]
      rw [hcount, readN_cons _ _ _ _ h1, readN_split _ _ _ _ _ h2, h3]
      simp [tokensOf, arrToks, Except.map, List.append_assoc]
  | .obj o, st, r => by
    intro hval hcap hsst hrem hbnd
    cases o with
    | nil =>
      simp only [jsonBytes, objBytes, List.cons_append, List.nil_append] at hrem
      obtain ⟨l1, h1⟩ := next_startObject st (125 :: r) hrem hsst
      obtain ⟨l2, h2⟩ := next_endObject
        ⟨st.bufCap, st.buf, st.lenient, .initial, none, l1, 125 :: r⟩ r
        (by simp [RdSt.remaining]) (Or.inl rfl)
      refine ⟨⟨st.bufCap, st.buf, st.lenient, .afterValue, none, l2, r⟩, ?_, rfl, rfl, rfl,
        by simp [RdSt.remaining]⟩
      simp [tokensOf, objToks, readN, h1, h2, bind, Except.bind]
    | cons k v rest =>
      simp only [jsonBytes, objBytes, List.append_assoc, List.cons_append,
        List.nil_append] at hrem
      obtain ⟨l1, h1⟩ := next_startObject st _ hrem hsst
      have hval2 : isValidUtf8 k = true ∧ validVal v = true ∧ validObj rest = true := by
        simpa [validVal, validObj, Bool.and_eq_true, and_assoc] using hval
      have hcap2 : k.length ≤ st.bufCap ∧ maxLit v ≤ st.bufCap ∧ maxLitObj rest ≤ st.bufCap := by
        simp only [maxLit, maxLitObj] at hcap
        refine ⟨le_trans (Nat.le_max_left _ _) hcap, ?_, ?_⟩
        · exact le_trans (le_trans (Nat.le_max_left _ _) (Nat.le_max_right _ _)) hcap
        · exact le_trans (le_trans (Nat.le_max_right _ _) (Nat.le_max_right _ _)) hcap
      obtain ⟨l2, h2k⟩ := next_key
        ⟨st.bufCap, st.buf, st.lenient, .initial, none, l1,
          34 :: (escBytes k ++ 34 :: 58 :: (jsonBytes v ++ (sepObjBytes rest ++ 125 :: r)))⟩
        k (jsonBytes v ++ (sepObjBytes rest ++ 125 :: r))
        (by simp [RdSt.remaining]) (Or.inl rfl) hval2.1 hcap2.1
      obtain ⟨st₂, h2, hbc2, hl2, hst2, hrem2⟩ := readValue_spec v
        ⟨st.bufCap, k, st.lenient, .afterKey, none, l2,
          jsonBytes v ++ (sepObjBytes rest ++ 125 :: r)⟩
        (sepObjBytes rest ++ 125 :: r) hval2.2.1 hcap2.2.1 (by simp) (by simp [RdSt.remaining])
        (head_sepObj rest 125 r (Or.inr (Or.inr rfl)))
      obtain ⟨st₃, h3, hbc3, hl3, hst3, hrem3⟩ := readObjTail_spec rest st₂ r hval2.2.2
        (by rw [hbc2]; exact hcap2.2.2) hst2 (by rw [hrem2]) hbnd
      refine ⟨st₃, ?_, by rw [hbc3, hbc2], by rw [hl3, hl2], hst3, hrem3⟩
      have hcount : (tokensOf (.obj (.cons k v rest))).length
          = (((tokensOf v).length + ((objToks rest).length + 1)) + 1) + 1 := by
        simp [tokensOf, objToks]
      rw [hcount, readN_cons _ _ _ _ h1, readN_cons _ _ _ _ h2k,
        readN_split _ _ _ _ _ h2, h3]
      simp [tokensOf, objToks, Except.map, List.append_assoc]

theorem readArrTail_spec : ∀ (a : JsonArrVal) (st : RdSt) (r : List Nat),
    validArr a = true → maxLitArr a ≤ st.bufCap → st.state = .afterValue →
    st.remaining = sepArrBytes a ++ 93 :: r →
    (∀ b ∈ r.head?, b = 44 ∨ b = 93 ∨ b = 125) →
    ∃ st', readN ((arrToks a).length + 1) st = .ok (arrToks a ++ [.endArray], st') ∧
      st'.bufCap = st.bufCap ∧ st'.lenient = st.lenient ∧
      st'.state = .afterValue ∧ st'.remaining = r
  | .nil, st, r => by
    intro hval hcap hstate hrem hbnd
    simp only [sepArrBytes, List.nil_append] at hrem
    obtain ⟨l, hn⟩ := next_endArray st r hrem (Or.inr hstate)
    refine ⟨⟨st.bufCap, st.buf, st.lenient, .afterValue, none, l, r⟩, ?_, rfl, rfl, rfl,
      by simp [RdSt.remaining]⟩
    simp [arrToks, readN, hn, bind, Except.bind]
  | .cons v rest, st, r => by
    intro hval hcap hstate hrem hbnd
    simp only [sepArrBytes, List.append_assoc, List.cons_append, List.nil_append] at hrem
    obtain ⟨l1, hc⟩ := next_comma st _ hrem hstate
    have hval2 : validVal v = true ∧ validArr rest = true := by
      simpa [validArr, Bool.and_eq_true] using hval
    have hcap2 : maxLit v ≤ st.bufCap ∧ maxLitArr rest ≤ st.bufCap := by
      simp only [maxLitArr] at hcap
      exact ⟨le_trans (Nat.le_max_left _ _) hcap, le_trans (Nat.le_max_right _ _) hcap⟩
    obtain ⟨st₂, h2, hbc2, hl2, hst2, hrem2⟩ := readValue_spec v
      ⟨st.bufCap, st.buf, st.lenient, .beforeEntry, none, l1,
        jsonBytes v ++ (sepArrBytes rest ++ 93 :: r)⟩
      (sepArrBytes rest ++ 93 :: r) hval2.1 hcap2.1 (by simp) (by simp [RdSt.remaining])
      (head_sepArr rest 93 r (Or.inr (Or.inl rfl)))
    obtain ⟨st₃, h3, hbc3, hl3, hst3, hrem3⟩ := readArrTail_spec rest st₂ r hval2.2
      (by rw [hbc2]; exact hcap2.2) hst2 (by rw [hrem2]) hbnd
    refine ⟨st₃, ?_, by rw [hbc3, hbc2], by rw [hl3, hl2], hst3, hrem3⟩
    have hcount : (arrToks (.cons v rest)).length + 1
        = ((tokensOf v).length + (arrToks rest).length) + 1 := by
      simp [arrToks]
    rw [hcount, readN_congr _ _ _ hc]
    have hcount2 : ((tokensOf v).length + (arrToks rest).length) + 1
        = (tokensOf v).length + ((arrToks rest).length + 1) := by omega
    rw [hcount2, readN_split _ _ _ _ _ h2, h3]
    simp [arrToks, Except.map, List.append_assoc]

theorem readObjTail_spec : ∀ (o : JsonObjVal) (st : RdSt) (r : List Nat),
    validObj o = true → maxLitObj o ≤ st.bufCap → st.state = .afterValue →
    st.remaining = sepObjBytes o ++ 125 :: r →
    (∀ b ∈ r.head?, b = 44 ∨ b = 93 ∨ b = 125) →
    ∃ st', readN ((objToks o).length + 1) st = .ok (objToks o ++ [.endObject], st') ∧
      st'.bufCap = st.bufCap ∧ st'.lenient = st.lenient ∧
      st'.state = .afterValue ∧ st'.remaining = r
  | .nil, st, r => by
    intro hval hcap hstate hrem hbnd
    simp only [sepObjBytes, List.nil_append] at hrem
    obtain ⟨l, hn⟩ := next_endObject st r hrem (Or.inr hstate)
    refine ⟨⟨st.bufCap, st.buf, st.lenient, .afterValue, none, l, r⟩, ?_, rfl, rfl, rfl,
      by simp [RdSt.remaining]⟩
    simp [objToks, readN, hn, bind, Except.bind]
  | .cons k v rest, st, r => by
    intro hval hcap hstate hrem hbnd
    simp only [sepObjBytes, List.append_assoc, List.cons_append, List.nil_append] at hrem
    obtain ⟨l1, hc⟩ := next_comma st _ hrem hstate
    have hval2 : isValidUtf8 k = true ∧ validVal v = true ∧ validObj rest = true := by
      simpa [validObj, Bool.and_eq_true, and_assoc] using hval
    have hcap2 : k.length ≤ st.bufCap ∧ maxLit v ≤ st.bufCap ∧ maxLitObj rest ≤ st.bufCap := by
      simp only [maxLitObj] at hcap
      refine ⟨le_trans (Nat.le_max_left _ _) hcap, ?_, ?_⟩
      · exact le_trans (le_trans (Nat.le_max_left _ _) (Nat.le_max_right _ _)) hcap
      · exact le_trans (le_trans (Nat.le_max_right _ _) (Nat.le_max_right _ _)) hcap
    obtain ⟨l2, h2k⟩ := next_key
      ⟨st.bufCap, st.buf, st.lenient, .beforeEntry, none, l1,
        34 :: (escBytes k ++ 34 :: 58 :: (jsonBytes v ++ (sepObjBytes rest ++ 125 :: r)))⟩
      k (jsonBytes v ++ (sepObjBytes rest ++ 125 :: r))
      (by simp [RdSt.remaining]) (Or.inr rfl) hval2.1 hcap2.1
    obtain ⟨st₂, h2, hbc2, hl2, hst2, hrem2⟩ := readValue_spec v
      ⟨st.bufCap, k, st.lenient, .afterKey, none, l2,
        jsonBytes v ++ (sepObjBytes rest ++ 125 :: r)⟩
      (sepObjBytes rest ++ 125 :: r) hval2.2.1 hcap2.2.1 (by simp) (by simp [RdSt.remaining])
      (head_sepObj rest 125 r (Or.inr (Or.inr rfl)))
    obtain ⟨st₃, h3, hbc3, hl3, hst3, hrem3⟩ := readObjTail_spec rest st₂ r hval2.2.2
      (by rw [hbc2]; exact hcap2.2.2) hst2 (by rw [hrem2]) hbnd
    refine ⟨st₃, ?_, by rw [hbc3, hbc2], by rw [hl3, hl2], hst3, hrem3⟩
    have hcount : (objToks (.cons k v rest)).length + 1
        = (((tokensOf v).length + ((objToks rest).length + 1)) + 1) := by
      simp [objToks]
      omega
    rw [hcount, readN_congr _ _ _ hc, readN_cons _ _ _ _ h2k,
      readN_split _ _ _ _ _ h2, h3]
    simp [objToks, Except.map, List.append_assoc]

end



/-- C2 (amended, positive half): serializing a value tree of string, boolean,
null and integer scalars through the writer (compact formatter, scopes via
the object/array builder methods, scalars via the escaped-string, boolean and
integer writers) and tokenizing the produced bytes with the reader yields
exactly the expected token sequence for that tree followed by `EndOfStream`:
identical structure tokens, string and key tokens carrying the original
(unescaped) bytes, and number literals that parse back to the same integer.
The float writers named by the claim are excluded: non-finite floats are
written as the `null` literal and do not survive the round trip (refuted
separately), and finite floats' digit strings come from `core::fmt`, outside
this crate. -/
theorem writer_reader_roundtrip (v : JsonValue) (cap : Nat)
    (hval : validVal v = true) (hcap : maxLit v ≤ cap) :
    (∃ st', readN ((tokensOf v).length + 1) (RdSt.init cap false (serializeCompact v)) =
        .ok (tokensOf v ++ [.endOfStream], st') ∧ st'.remaining = []) ∧
    (∀ n : Int, parseIntModel (intBytes n) = some n) := by
  constructor
  · have hinit : (RdSt.init cap false (serializeCompact v)).remaining = jsonBytes v ++ [] := by
      simp [RdSt.init, RdSt.remaining, serializeCompact_eq]
    obtain ⟨st', h, hbc, hl, hs, hrem⟩ := readValue_spec v
      (RdSt.init cap false (serializeCompact v)) []
      hval (by simpa [RdSt.init] using hcap) (by simp [RdSt.init]) hinit (by simp)
    refine ⟨st', ?_, hrem⟩
    rw [readN_split _ _ _ _ _ h]
    simp [readN, next_eos st' hrem, bind, Except.bind, Except.map]
  · exact parseIntModel_intBytes

theorem writer_reader_roundtrip_witness :
    validVal (.obj (.cons [97] (.num (-12))
      (.cons [10] (.arr (.cons (.str [104, 34]) (.cons .nullV .nil))) .nil))) = true ∧
    maxLit (.obj (.cons [97] (.num (-12))
      (.cons [10] (.arr (.cons (.str [104, 34]) (.cons .nullV .nil))) .nil))) ≤ 8 ∧
    ((∃ st', readN ((tokensOf (.obj (.cons [97] (.num (-12))
        (.cons [10] (.arr (.cons (.str [104, 34]) (.cons .nullV .nil))) .nil)))).length + 1)
        (RdSt.init 8 false (serializeCompact (.obj (.cons [97] (.num (-12))
          (.cons [10] (.arr (.cons (.str [104, 34]) (.cons .nullV .nil))) .nil))))) =
        .ok (tokensOf (.obj (.cons [97] (.num (-12))
          (.cons [10] (.arr (.cons (.str [104, 34]) (.cons .nullV .nil))) .nil))) ++
          [.endOfStream], st') ∧ st'.remaining = []) ∧
     (∀ n : Int, parseIntModel (intBytes n) = some n)) :=
  ⟨by decide, by decide,
    writer_reader_roundtrip (.obj (.cons [97] (.num (-12))
      (.cons [10] (.arr (.cons (.str [104, 34]) (.cons .nullV .nil))) .nil))) 8
      (by decide) (by decide)⟩

/-- Counterexample to C2 as stated: the claim includes the float writers, but
a non-finite float does not survive the round trip.  For every digit
rendering of finite values, writing the array `[NaN]` through
`JsonArray::write_f64_value` or the object `{"a": +inf}` through
`JsonObject::write_f64_value` produces the bytes of `[null]` /
`{"a":null}` — the non-finite arm of `FormatWrapper::write_f64` writes the
`null` literal — and the reader tokenizes them as `NullLiteral`, which is no
`NumberLiteral`: the scalar value is not reconstructed. -/
theorem nonfinite_float_roundtrip_counterexample :
    (∀ display lowerExp : ℚ → List Nat,
      (wbind (arrNew listSink (⟨[], none⟩ : WrSt (List Nat) Unit)) fun sc st =>
        wbind (arrWriteF64Value display lowerExp listSink sc .nan st) fun sc st =>
          wbind (arrEndCore listSink sc st) fun _ st => (.ok (), st)).2.inner
        = [91, 110, 117, 108, 108, 93])
    ∧ (∀ display lowerExp : ℚ → List Nat,
      (wbind (objNew listSink (⟨[], none⟩ : WrSt (List Nat) Unit)) fun sc st =>
        wbind (objWriteF64Value display lowerExp listSink sc [97] (.inf false) st) fun sc st =>
          wbind (objEndCore listSink sc st) fun _ st => (.ok (), st)).2.inner
        = [123, 34, 97, 34, 58, 110, 117, 108, 108, 125])
    ∧ writeF64Model .nan = .nullOut ∧ writeF64Model (.inf false) = .nullOut
    ∧ writeF64Model (.inf true) = .nullOut
    ∧ readN 4 (RdSt.init 8 false [91, 110, 117, 108, 108, 93]) =
        .ok ([.startArray, .nullLit, .endArray, .endOfStream],
          ⟨8, [], false, .afterValue, none, ⟨6, 1, 7⟩, []⟩)
    ∧ readN 5 (RdSt.init 8 false [123, 34, 97, 34, 58, 110, 117, 108, 108, 125]) =
        .ok ([.startObject, .key [97], .nullLit, .endObject, .endOfStream],
          ⟨8, [97], false, .afterValue, none, ⟨10, 1, 11⟩, []⟩)
    ∧ (∀ s, Tok.nullLit ≠ Tok.numberLit s) := by
  refine ⟨fun display lowerExp => rfl, fun display lowerExp => rfl, rfl, rfl, rfl,
    by decide, by decide, fun s h => Tok.noConfusion h⟩

theorem escByte_97 : escByte 97 = [97] := rfl

theorem escBytes_replicate97 (n : Nat) :
    escBytes (List.replicate n 97) = List.replicate n 97 := by
  induction n with
  | zero => rfl
  | succ m ih =>
    rw [List.replicate_succ]
    show escByte 97 ++ escBytes (List.replicate m 97) = _
    rw [escByte_97, ih]
    rfl

theorem appendToBuf_full (ch : Nat) (st : RdSt) (h : st.bufCap ≤ st.buf.length) :
    appendToBuf ch st = .error (.bufferOverflow st.loc) := by
  rw [appendToBuf, if_pos h]

theorem consumeWsF_cons_not_ws (fuel cap2 : Nat) (buf : List Nat) (len : Bool)
    (sst : ReaderState) (loc : Location) (b : Nat) (t : List Nat) (hw : isWsByte b = false) :
    consumeWsF (fuel + 1) ⟨cap2, buf, len, sst, none, loc, b :: t⟩ =
      ⟨cap2, buf, len, sst, some b, loc.afterByte b, t⟩ := by
  simp [consumeWsF, readByte, hw]

set_option maxHeartbeats 2000000 in
theorem strLoopF_overflow97 : ∀ (m cap : Nat) (buf : List Nat) (len : Bool)
    (sst : ReaderState) (loc : Location) (rest : List Nat) (fuel : Nat),
    buf.length + m = cap → m + 1 < fuel →
    strLoopF fuel ⟨cap, buf, len, sst, none, loc, List.replicate (m + 1) 97 ++ rest⟩ =
      .error (.bufferOverflow ⟨loc.offset + m + 1, loc.line, loc.column + m + 1⟩)
  | 0, cap, buf, len, sst, loc, rest, fuel => by
    intro hcap hf
    cases fuel with
    | zero => omega
    | succ f =>
      have hge : buf.length ≥ cap := by omega
      rw [show List.replicate (0 + 1) 97 = [97] from rfl]
      simp only [List.cons_append, List.nil_append]
      rw [strLoopF]
      simp only [readByte, Location.afterByte]
      norm_num
      rw [appendToBuf, if_pos (by simpa using hge)]
      simp only [bind, Except.bind]
  | m + 1, cap, buf, len, sst, loc, rest, fuel => by
    intro hcap hf
    cases fuel with
    | zero => omega
    | succ f =>
      have hge : ¬ (buf.length ≥ cap) := by omega
      rw [List.replicate_succ]
      simp only [List.cons_append]
      rw [strLoopF]
      simp only [readByte, Location.afterByte]
      norm_num
      rw [appendToBuf, if_neg hge]
      simp only [bind, Except.bind]
      rw [strLoopF_overflow97 m cap (buf ++ [97]) len sst
        ⟨loc.offset + 1, loc.line, loc.column + 1⟩ rest f (by simp; omega) (by omega)]
      simp only [Except.error.injEq, RdErr.bufferOverflow.injEq, Location.mk.injEq,
        and_true, true_and]
      omega



theorem next_entry_none (cap : Nat) (buf : List Nat) (len : Bool) (sst : ReaderState)
    (loc : Location) (b : Nat) (r : List Nat) (hw : isWsByte b = false) :
    next ⟨cap, buf, len, sst, none, loc, b :: r⟩ =
      dispatch (nextF (r.length + 1)) b ⟨cap, buf, len, sst, none, loc.afterByte b, r⟩ := by
  rw [next]
  simp only [RdSt.remaining, List.nil_append, List.length_cons]
  rw [nextF, consumeWhitespace]
  simp only [RdSt.remaining, List.nil_append, List.length_cons]
  rw [consumeWsF_cons_not_ws _ _ _ _ _ _ _ _ hw]
  simp [readByte]

theorem parseAfterQuote_overflow (cap : Nat) (buf0 : List Nat) (len : Bool)
    (sst : ReaderState) (loc : Location) (rest : List Nat) :
    parseAfterQuote ⟨cap, buf0, len, sst, none, loc, List.replicate (cap + 1) 97 ++ rest⟩ =
      .error (.bufferOverflow ⟨loc.offset + cap + 1, loc.line, loc.column + cap + 1⟩) := by
  have h := strLoopF_overflow97 cap cap [] len sst loc rest
    ((List.replicate (cap + 1) 97 ++ rest).length + 1) (by simp)
    (by simp only [List.length_append, List.length_replicate]; omega)
  rw [parseAfterQuote]
  simp only [bind, Except.bind, RdSt.remaining, List.nil_append]
  rw [h]

/-- C5 (amended): a string literal whose content length equals the buffer
capacity is read successfully, while content length capacity + 1 fails with
the distinct `BufferOverflow` error (not a parse error).  The error carries
the reader's current location, which is one byte past the overflowing byte:
for content bytes at offsets 1 through capacity + 1, the overflowing byte
sits at offset capacity + 1 but the reported location is offset
capacity + 2 (line 1, column capacity + 3). -/
theorem buffer_capacity_boundary (cap : Nat) :
    (∃ l, next (RdSt.init cap false ([34] ++ List.replicate cap 97 ++ [34])) =
      .ok (.stringLit (List.replicate cap 97),
        ⟨cap, List.replicate cap 97, false, .afterValue, none, l, []⟩)) ∧
    next (RdSt.init cap false ([34] ++ List.replicate (cap + 1) 97 ++ [34])) =
      .error (.bufferOverflow ⟨cap + 2, 1, cap + 3⟩) := by
  constructor
  · obtain ⟨l, hn⟩ := next_string (RdSt.init cap false ([34] ++ List.replicate cap 97 ++ [34]))
      (List.replicate cap 97) []
      (by simp [RdSt.init, RdSt.remaining, escBytes_replicate97])
      (by simp [RdSt.init])
      (isValidUtf8_ascii _ (fun b hb => by rw [List.eq_of_mem_replicate hb]; omega))
      (by simp [RdSt.init])
      (by simp)
    exact ⟨l, hn⟩
  · have hinit : RdSt.init cap false ([34] ++ List.replicate (cap + 1) 97 ++ [34]) =
        ⟨cap, [], false, .initial, none, Location.start,
          34 :: (List.replicate (cap + 1) 97 ++ [34])⟩ := by
      simp [RdSt.init]
    rw [hinit, next_entry_none _ _ _ _ _ _ _ (by decide)]
    simp only [dispatch, reduceIte]
    rw [parseAfterQuote_overflow]
    simp only [Location.start, Location.afterByte, Except.error.injEq,
      RdErr.bufferOverflow.injEq, Location.mk.injEq]
    norm_num
    omega

end JsonStreaming
